import Mathlib

/-!
# Verification of the NFA→DFA→TM-decider pipeline (Convert_NFA_to_DFA.py)

A shallow embedding of the automaton conversion-and-simulation pipeline:
epsilon-closure, subset-move, subset construction (`nfa_to_dfa`),
the DFA→TM-decider builder (`dfa_to_tm_decider`) and the step-by-step
Turing-machine simulator (`simulate_tm`), together with theorems about
language preservation, totality of the produced transition tables,
termination of the constructed decider, and the simulator's defensive
handling of transition-table gaps.

Python dictionaries are embedded as association lists with a `dict_get`
lookup in which the most recent assignment is consed at the front (so the
first match is the latest assignment, as in a dict).  Python `set` /
`frozenset` values are embedded as `Finset Nat` (canonical, decidable
equality — exactly the role the frozenset plays as a dictionary key).
The two `while` loops of the source (the epsilon-closure worklist and the
subset-construction loop) are embedded with an explicit fuel argument
large enough to be proved sufficient, so every definition is executable.
-/

namespace Conv

/-- The symbols occurring in the fixed alphabets of the source:
`'a'`, `'b'` and the blank `'_'`. -/
inductive Sym : Type
  | a : Sym
  | b : Sym
  | blank : Sym
deriving DecidableEq, Repr

/-- Head moves `'L'` and `'R'`. -/
inductive Move : Type
  | L : Move
  | R : Move
deriving DecidableEq, Repr

/-- A key label in an NFA transition dictionary: a real input symbol, or
the `'eps'` pseudo-symbol. -/
inductive Label : Type
  | sym : Sym → Label
  | eps : Label
deriving DecidableEq, Repr

/-- `INPUT_ALPHABET: Final[list] = ['a', 'b']`. -/
def INPUT_ALPHABET : List Sym := [Sym.a, Sym.b]

/-- `TAPE_ALPHABET: Final[list] = ['a', 'b', '_']`. -/
def TAPE_ALPHABET : List Sym := [Sym.a, Sym.b, Sym.blank]

/-- `MOVES: Final[list] = ['L', 'R']`. -/
def MOVES : List Move := [Move.L, Move.R]

/-- Dictionary lookup on an association list: first match wins.  New
assignments are consed at the front, so this is the latest assignment,
matching Python `dict` semantics. -/
def dict_get {α β : Type} [DecidableEq α] : List (α × β) → α → Option β
  | [], _ => none
  | (k, v) :: rest, x => if x = k then some v else dict_get rest x

/-- An NFA as the Python dictionaries describe it: `states`, `alphabet`,
`start_state`, `accept_states`, and a transition dictionary from
`(state, symbol-or-eps)` to a list of successor states. -/
structure NFA' : Type where
  states : List Nat
  alphabet : List Sym
  start_state : Nat
  accept_states : List Nat
  transitions : List ((Nat × Label) × List Nat)
deriving DecidableEq, Repr

/-- A DFA as produced by `nfa_to_dfa`: transition dictionary from
`(state, symbol)` to a single successor. -/
structure DFA' : Type where
  states : List Nat
  alphabet : List Sym
  start_state : Nat
  accept_states : List Nat
  transitions : List ((Nat × Sym) × Nat)
deriving DecidableEq, Repr

/-- A Turing machine as produced by `dfa_to_tm_decider` and consumed by
`simulate_tm`. -/
structure TM : Type where
  num_states : Nat
  start_state : Nat
  blank : Sym
  transitions : List ((Nat × Sym) × (Nat × Sym × Move))
  accept_states : List Nat
  reject_states : List Nat
deriving DecidableEq, Repr

/-- The list of epsilon-successors of a state (empty when the key
`(state, 'eps')` is absent from the transition dictionary). -/
def epsSucc (nfa : NFA') (s : Nat) : List Nat :=
  (dict_get nfa.transitions (s, Label.eps)).getD []

/-- The list of successors of a state on a real input symbol (empty when
the key is absent). -/
def symSucc (nfa : NFA') (s : Nat) (c : Sym) : List Nat :=
  (dict_get nfa.transitions (s, Label.sym c)).getD []

/-- All states appearing in some successor list of a transition
dictionary.  Every state the worklist algorithms can ever add is either a
seed or belongs to this finite set. -/
def allTargets (nfa : NFA') : Finset Nat :=
  nfa.transitions.foldr (fun e acc => e.2.toFinset ∪ acc) ∅

/-- One pass of the inner `for nxt in next_states` loop of
`epsilon_closure`: a state not yet in the closure is added to it and
pushed on the worklist stack (Python pushes/pops at the list tail; the
stack is embedded head-first, preserving the LIFO order). -/
def ecPush (p : Finset Nat × List Nat) (nxt : Nat) : Finset Nat × List Nat :=
  if nxt ∈ p.1 then p else (insert nxt p.1, nxt :: p.2)

/-- The worklist loop of `epsilon_closure`, with explicit fuel. -/
def ec_loop (nfa : NFA') : Nat → Finset Nat → List Nat → Finset Nat
  | 0, closure, _ => closure
  | _ + 1, closure, [] => closure
  | fuel + 1, closure, state :: stack =>
    match dict_get nfa.transitions (state, Label.eps) with
    | none => ec_loop nfa fuel closure stack
    | some next_states =>
      let p := next_states.foldl ecPush (closure, stack)
      ec_loop nfa fuel p.1 p.2

/-- An executable, kernel-reducible enumeration of a `Finset Nat` in
increasing order (the role of Python's `list(state_set)` /
`sorted(list(...))`). -/
def finsetList (s : Finset Nat) : List Nat :=
  (List.range (s.sup id + 1)).filter (fun x => x ∈ s)

/-- Fuel that will be shown sufficient for the epsilon-closure worklist:
each loop iteration pops one stack entry, and entries are pushed at most
once per state of `state_set ∪ allTargets`. -/
def ecFuel (nfa : NFA') (state_set : Finset Nat) : Nat :=
  state_set.card + (allTargets nfa).card

/-- `epsilon_closure(nfa, state_set)`: worklist fixed-point computation
of the epsilon-closure of a set of NFA states. -/
def epsilon_closure (nfa : NFA') (state_set : Finset Nat) : Finset Nat :=
  ec_loop nfa (ecFuel nfa state_set) state_set (finsetList state_set)

/-- `move_nfa(nfa, state_set, symbol)`: the union over the set of the
direct successors on `symbol`. -/
def move_nfa (nfa : NFA') (state_set : Finset Nat) (symbol : Sym) : Finset Nat :=
  state_set.biUnion (fun s => (symSucc nfa s symbol).toFinset)

/-- One epsilon edge. -/
def epsStepRel (nfa : NFA') (s t : Nat) : Prop := t ∈ epsSucc nfa s

/-- Epsilon reachability: the reflexive-transitive closure of single
epsilon edges. -/
def epsReaches (nfa : NFA') : Nat → Nat → Prop :=
  Relation.ReflTransGen (epsStepRel nfa)

/-- The working data of `nfa_to_dfa`: the discovered-subset list
`subsets`, the canonicalization dictionary `subset_to_index` (`table`),
the DFA transition dictionary, and the accept-state set. -/
structure DetSt : Type where
  subsets : List (Finset Nat)
  table : List (Finset Nat × Nat)
  dtrans : List ((Nat × Sym) × Nat)
  daccept : Finset Nat
deriving DecidableEq

/-- The subset reached from `subset` on `symbol`: `move_nfa` followed by
`epsilon_closure` when the move set is non-empty (Python truthiness of
`if move_set:`), the empty set otherwise. -/
def detStep (nfa : NFA') (subset : Finset Nat) (symbol : Sym) : Finset Nat :=
  let move_set := move_nfa nfa subset symbol
  if move_set.Nonempty then epsilon_closure nfa move_set else ∅

/-- Body of the `for symbol in alphabet` loop of `nfa_to_dfa`: compute the
target subset, canonicalize it through `subset_to_index` (assigning the
next fresh index if unseen), and record the DFA transition edge. -/
def processSymbol (nfa : NFA') (subset : Finset Nat) (current_index : Nat)
    (st : DetSt) (symbol : Sym) : DetSt :=
  let target_closure := detStep nfa subset symbol
  match dict_get st.table target_closure with
  | some next_index =>
    { st with dtrans := ((current_index, symbol), next_index) :: st.dtrans }
  | none =>
    let new_index := st.subsets.length
    { st with
      table := (target_closure, new_index) :: st.table,
      subsets := st.subsets ++ [target_closure],
      dtrans := ((current_index, symbol), new_index) :: st.dtrans }

/-- The accept-marking step of `nfa_to_dfa`: a DFA state is accepting iff
its subset contains an NFA accept state. -/
def markAccept (nfa : NFA') (subset : Finset Nat) (current_index : Nat)
    (st : DetSt) : DetSt :=
  if ∃ s ∈ subset, s ∈ nfa.accept_states then
    { st with daccept := insert current_index st.daccept }
  else st

/-- The `while index < len(subsets)` loop of `nfa_to_dfa`, with explicit
fuel (the number of distinct subsets is bounded, so enough fuel exists
and is proved sufficient below). -/
def det_loop (nfa : NFA') : Nat → Nat → DetSt → DetSt
  | 0, _, st => st
  | fuel + 1, index, st =>
    if h : index < st.subsets.length then
      let subset := st.subsets.get ⟨index, h⟩
      let st1 := nfa.alphabet.foldl (processSymbol nfa subset index) st
      let st2 := markAccept nfa subset index st1
      det_loop nfa fuel (index + 1) st2
    else st

/-- A finite universe containing every NFA state the construction can
ever place in a subset: the start state plus every transition target. -/
def detUniv (nfa : NFA') : Finset Nat :=
  insert nfa.start_state (allTargets nfa)

/-- Fuel sufficient for the subset-construction loop: the number of
distinct subsets of the state universe. -/
def detFuel (nfa : NFA') : Nat := 2 ^ (detUniv nfa).card

/-- The loop state of `nfa_to_dfa` just before the `while` loop: the
epsilon-closure of the start state is subset number `0`. -/
def detInit (nfa : NFA') : DetSt :=
  let start_closure := epsilon_closure nfa {nfa.start_state}
  { subsets := [start_closure],
    table := [(start_closure, 0)],
    dtrans := [],
    daccept := ∅ }

/-- The loop state of `nfa_to_dfa` after the `while` loop. -/
def detFinal (nfa : NFA') : DetSt :=
  det_loop nfa (detFuel nfa) 0 (detInit nfa)

/-- `nfa_to_dfa(nfa)`: subset construction.  The DFA's states are the
indices `0..N-1` of the discovered subsets, its start state is index 0,
its accept states are the marked indices in increasing order (Python's
`sorted(list(...))`), and its transitions are as recorded. -/
def nfa_to_dfa (nfa : NFA') : DFA' :=
  let F := detFinal nfa
  { states := List.range F.subsets.length,
    alphabet := nfa.alphabet,
    start_state := 0,
    accept_states := finsetList F.daccept,
    transitions := F.dtrans }

/-- `dfa_to_tm_decider(dfa)`: for every DFA state and every symbol of the
fixed outer `INPUT_ALPHABET`, write back the symbol read and move right,
following the DFA transition when it exists (absent transitions and
symbols outside the DFA's own alphabet route to the reject sink); on the
blank, move to the accept sink iff the state is accepting.  Two sink
states `N` (accept) and `N+1` (reject) are reserved past the DFA states. -/
def tmSymEntry (dfa : DFA') (state : Nat)
    (acc2 : List ((Nat × Sym) × (Nat × Sym × Move))) (symbol : Sym) :
    List ((Nat × Sym) × (Nat × Sym × Move)) :=
  let reject_state := dfa.states.length + 1
  let nxt_st :=
    if symbol ∈ dfa.alphabet then
      match dict_get dfa.transitions (state, symbol) with
      | some t => t
      | none => reject_state
    else reject_state
  ((state, symbol), (nxt_st, symbol, Move.R)) :: acc2

/-- The per-DFA-state body of the dictionary-building loop of
`dfa_to_tm_decider`: entries for both `INPUT_ALPHABET` symbols, then the
blank-symbol entry. -/
def tmStateRow (dfa : DFA')
    (acc : List ((Nat × Sym) × (Nat × Sym × Move))) (state : Nat) :
    List ((Nat × Sym) × (Nat × Sym × Move)) :=
  let accept_state := dfa.states.length
  let reject_state := dfa.states.length + 1
  let acc1 := INPUT_ALPHABET.foldl (tmSymEntry dfa state) acc
  let nxt_st_blank := if state ∈ dfa.accept_states then accept_state else reject_state
  ((state, Sym.blank), (nxt_st_blank, Sym.blank, Move.R)) :: acc1

def dfa_to_tm_decider (dfa : DFA') : TM :=
  let num_dfa_states := dfa.states.length
  let accept_state := num_dfa_states
  let reject_state := num_dfa_states + 1
  let tm_transitions := dfa.states.foldl (tmStateRow dfa) []
  { num_states := (List.range (num_dfa_states + 2)).length,
    start_state := dfa.start_state,
    blank := Sym.blank,
    transitions := tm_transitions,
    accept_states := [accept_state],
    reject_states := [reject_state] }

/-- The transition value `dfa_to_tm_decider` records for a DFA state `s`
and tape symbol `c`: follow the DFA on an in-alphabet input symbol
(absent DFA transitions route to the reject sink `N+1`), and on the blank
go to the accept sink `N` iff `s` is accepting.  The written symbol is
always the symbol read, and the head always moves right. -/
def deciderRule (dfa : DFA') (s : Nat) (c : Sym) : Nat × Sym × Move :=
  match c with
  | Sym.blank =>
    ((if s ∈ dfa.accept_states then dfa.states.length else dfa.states.length + 1),
      Sym.blank, Move.R)
  | c =>
    ((if c ∈ dfa.alphabet then
        match dict_get dfa.transitions (s, c) with
        | some t => t
        | none => dfa.states.length + 1
      else dfa.states.length + 1), c, Move.R)

/-- A recorded configuration: the data captured by
`format_configuration(state, tape, head_position)` at each step. -/
structure Config : Type where
  state : Nat
  tape : List Sym
  head : Int
deriving DecidableEq, Repr

/-- The loop variables of `simulate_tm`: tape, head position, current
state, collected configurations and step counter. -/
structure SimSt : Type where
  tape : List Sym
  head : Int
  state : Nat
  configurations : List Config
  steps : Nat
deriving DecidableEq, Repr

/-- `max_steps is not None and steps >= max_steps`. -/
def budget_exhausted (max_steps : Option Nat) (steps : Nat) : Bool :=
  match max_steps with
  | some m => decide (steps ≥ m)
  | none => false

/-- The tape-extension step of `simulate_tm`: prepend a blank and reset
the head to 0 when the head is negative, append a blank when the head is
at or past the right end. -/
def extend_tape (blankSym : Sym) (tape : List Sym) (head : Int) : List Sym × Int :=
  let t1 := if head < 0 then blankSym :: tape else tape
  let h1 := if head < 0 then (0 : Int) else head
  if (t1.length : Int) ≤ h1 then (t1 ++ [blankSym], h1) else (t1, h1)

/-- The symbol under the head after tape extension (`tape[head]`; the
default is never used from a reachable simulator state, where the head is
always in range after extension). -/
def read_symbol (blankSym : Sym) (tape : List Sym) (head : Int) : Sym :=
  ((extend_tape blankSym tape head).1).getD (extend_tape blankSym tape head).2.toNat blankSym

/-- The outcome of one iteration of the `while True` loop of
`simulate_tm`: either a returned `(verdict, trace)` pair or the state for
the next iteration. -/
inductive LoopRes : Type
  | ret (verdict : Nat) (trace : List Config) : LoopRes
  | next (st : SimSt) : LoopRes
deriving DecidableEq, Repr

/-- One iteration of the `while True` loop of `simulate_tm`, in the
source's order: record the configuration; return on accept, reject or an
exhausted step budget; extend the tape; read the symbol under the head;
return reject when the transition key is absent; otherwise write, move
the head, and update state and step counter. -/
def sim_loop_body (tm : TM) (max_steps : Option Nat) (st : SimSt) : LoopRes :=
  let configurations := st.configurations ++ [⟨st.state, st.tape, st.head⟩]
  if st.state ∈ tm.accept_states then .ret 1 configurations
  else if st.state ∈ tm.reject_states then .ret 0 configurations
  else if budget_exhausted max_steps st.steps then .ret 0 configurations
  else
    let te := extend_tape tm.blank st.tape st.head
    let current_symbol := te.1.getD te.2.toNat tm.blank
    match dict_get tm.transitions (st.state, current_symbol) with
    | none => .ret 0 configurations
    | some (nxt_st, tape_char, direction) =>
      let tape3 := te.1.set te.2.toNat tape_char
      let head3 := if direction = Move.R then te.2 + 1 else te.2 - 1
      .next ⟨tape3, head3, nxt_st, configurations, st.steps + 1⟩

/-- The `while True` loop of `simulate_tm`, with explicit fuel (the
source loop has no intrinsic bound for arbitrary machines; `none` is
returned only when the fuel runs out before the loop returns). -/
def sim_run (tm : TM) (max_steps : Option Nat) : Nat → SimSt → Option (Nat × List Config)
  | 0, _ => none
  | fuel + 1, st =>
    match sim_loop_body tm max_steps st with
    | .ret v trace => some (v, trace)
    | .next st' => sim_run tm max_steps fuel st'

/-- The initialization of `simulate_tm`: tape is the input string followed
by one blank, head 0, the TM's start state, no configurations, step 0. -/
def sim_init (tm : TM) (input_string : List Sym) : SimSt :=
  { tape := input_string ++ [tm.blank],
    head := 0,
    state := tm.start_state,
    configurations := [],
    steps := 0 }

/-- `simulate_tm(tm, input_string, max_steps)`: run the loop from the
initial configuration, with the given fuel bound on loop iterations. -/
def simulate_tm (tm : TM) (input_string : List Sym) (max_steps : Option Nat)
    (fuel : Nat) : Option (Nat × List Config) :=
  sim_run tm max_steps fuel (sim_init tm input_string)

/-- The verdict `simulate_tm` reaches on a decider `dfa_to_tm_decider dfa`
from state `s` with the suffix `v` of the input still unread: the accept
sink `N` yields 1, the reject sink `N+1` yields 0, a DFA state follows
`deciderRule`, and any other state has no transition entry and is
rejected defensively. -/
def deciderVerdict (dfa : DFA') : Nat → List Sym → Nat
  | s, [] =>
    if s = dfa.states.length then 1
    else if s = dfa.states.length + 1 then 0
    else if s ∈ dfa.states then (if s ∈ dfa.accept_states then 1 else 0)
    else 0
  | s, c :: v =>
    if s = dfa.states.length then 1
    else if s = dfa.states.length + 1 then 0
    else if s ∈ dfa.states then deciderVerdict dfa (deciderRule dfa s c).1 v
    else 0

/-- Modelled from the spec: DFA execution (the source never runs a DFA
directly — the spec's `TM fidelity` and `Language equivalence` properties
compare against independent DFA simulation, with an absent transition
entry meaning implicit rejection). -/
def dfa_run (dfa : DFA') : Nat → List Sym → Option Nat
  | s, [] => some s
  | s, c :: w =>
    match dict_get dfa.transitions (s, c) with
    | none => none
    | some t => dfa_run dfa t w

/-- Modelled from the spec: the DFA accepts a string iff running its
transitions from the start state consumes the whole string and ends in an
accept state; falling off the (possibly partial) table rejects. -/
def dfa_accepts (dfa : DFA') (w : List Sym) : Bool :=
  match dfa_run dfa dfa.start_state w with
  | some s => decide (s ∈ dfa.accept_states)
  | none => false

/-- A small concrete DFA of the pipeline's shape (states `0..1`, alphabet
`{a}`, one transition `0 --a--> 1`, accepting `{1}`), used as a concrete
instance for the decider theorems. -/
def exDfa : DFA' := ⟨[0, 1], [Sym.a], 0, [1], [((0, Sym.a), 1)]⟩

/-- A TM with an empty transition dictionary, used as a concrete instance
of a machine whose table lookup fails immediately. -/
def tmMissing : TM := ⟨1, 0, Sym.blank, [], [], []⟩

/-- The pieces of the subset-construction state that every loop step
preserves: the discovered subsets are distinct, inside the universe, and
in exact correspondence with the canonicalization dictionary. -/
def DetCore (nfa : NFA') (st : DetSt) : Prop :=
  st.subsets.Nodup ∧ (∀ S ∈ st.subsets, S ⊆ detUniv nfa)
    ∧ (∀ (S : Finset Nat) (i : Nat), dict_get st.table S = some i ↔ st.subsets.get? i = some S)

/-- The per-symbol completion property at the current index: the DFA
transition edge is recorded and its target is the index of the stepped
subset. -/
def DtransOk (nfa : NFA') (subset : Finset Nat) (index : Nat) (st : DetSt) (c : Sym) : Prop :=
  ∃ k, dict_get st.dtrans (index, c) = some k
    ∧ st.subsets.get? k = some (detStep nfa subset c)

/-- The invariant of the `while index < len(subsets)` loop of
`nfa_to_dfa`: canonicalization bookkeeping (`DetCore`), the start subset
at index 0, and — for every already-processed index — a complete,
correct transition row and a correct accept mark. -/
structure DetInv (nfa : NFA') (index : Nat) (st : DetSt) : Prop where
  core : DetCore nfa st
  idx_le : index ≤ st.subsets.length
  head0 : st.subsets.get? 0 = some (epsilon_closure nfa {nfa.start_state})
  processed : ∀ (j : Nat) (Sj : Finset Nat), st.subsets.get? j = some Sj → j < index →
    ∀ c ∈ nfa.alphabet, ∃ k, dict_get st.dtrans (j, c) = some k
      ∧ st.subsets.get? k = some (detStep nfa Sj c)
  accepted : ∀ (j : Nat) (Sj : Finset Nat), st.subsets.get? j = some Sj → j < index →
    (j ∈ st.daccept ↔ ∃ s ∈ Sj, s ∈ nfa.accept_states)
  daccept_lt : ∀ j ∈ st.daccept, j < index

/-- `build_example_nfa()` from the source: states `{0,1,2}`, alphabet
`{a,b}`, start 0, accept `{2}`, transitions `δ(0,a)={0,1}`, `δ(0,b)={0}`,
`δ(1,b)={2}`. -/
def build_example_nfa : NFA' :=
  { states := [0, 1, 2],
    alphabet := [Sym.a, Sym.b],
    start_state := 0,
    accept_states := [2],
    transitions := [((0, Label.sym Sym.a), [0, 1]), ((0, Label.sym Sym.b), [0]),
      ((1, Label.sym Sym.b), [2])] }

/-- A malformed NFA whose start state `5` is not a member of its state
set `[0]`. -/
def badNfa : NFA' := ⟨[0], [Sym.a], 5, [], []⟩

/-- An NFA that has no `b`-transition at all, so determinizing it
discovers the empty subset (the dead state). -/
def deadNfa : NFA' := ⟨[0], [Sym.a, Sym.b], 0, [0], [((0, Label.sym Sym.a), [0])]⟩

/-- Path-based NFA acceptance semantics: `NfaReads nfa s w t` holds when
the NFA can go from state `s` to state `t` consuming exactly the input
word `w`, with arbitrarily many interleaved epsilon moves. -/
inductive NfaReads (nfa : NFA') : Nat → List Sym → Nat → Prop where
  | refl (s : Nat) : NfaReads nfa s [] s
  | eps (s t u : Nat) (w : List Sym) :
      t ∈ epsSucc nfa s → NfaReads nfa t w u → NfaReads nfa s w u
  | step (s t u : Nat) (c : Sym) (w : List Sym) :
      t ∈ symSucc nfa s c → NfaReads nfa t w u → NfaReads nfa s (c :: w) u

/-- The NFA accepts `w` iff some accepting state is reachable from the
start state reading exactly `w`. -/
def nfa_accepts (nfa : NFA') (w : List Sym) : Prop :=
  ∃ t, NfaReads nfa nfa.start_state w t ∧ t ∈ nfa.accept_states

/-- The set of NFA states reachable from the start on a word, computed
with the construction's own step function (move then closure). -/
def afterSet (nfa : NFA') (w : List Sym) : Finset Nat :=
  w.foldl (detStep nfa) (epsilon_closure nfa {nfa.start_state})

/-- A set closed under single epsilon moves. -/
def EpsClosed (nfa : NFA') (S : Finset Nat) : Prop :=
  ∀ x ∈ S, ∀ y ∈ epsSucc nfa x, y ∈ S

@[simp] theorem dict_get_nil {α β : Type} [DecidableEq α] (x : α) :
    dict_get ([] : List (α × β)) x = none := rfl

@[simp] theorem dict_get_cons {α β : Type} [DecidableEq α]
    (k : α) (v : β) (rest : List (α × β)) (x : α) :
    dict_get ((k, v) :: rest) x = if x = k then some v else dict_get rest x := rfl

theorem dict_get_mem {α β : Type} [DecidableEq α] :
    ∀ {l : List (α × β)} {x : α} {v : β}, dict_get l x = some v → (x, v) ∈ l := by
  intro l
  induction l with
  | nil => intro x v h; simp [dict_get] at h
  | cons p rest ih =>
    intro x v h
    rw [show p = (p.1, p.2) from rfl, dict_get_cons] at h
    by_cases hx : x = p.1
    · subst hx
      simp at h
      subst h
      exact List.mem_cons_self _ _
    · rw [if_neg hx] at h
      exact List.mem_cons_of_mem _ (ih h)

theorem mem_targets_foldr {l : List ((Nat × Label) × List Nat)}
    {e : (Nat × Label) × List Nat} (he : e ∈ l) {x : Nat} (hx : x ∈ e.2) :
    x ∈ l.foldr (fun e acc => e.2.toFinset ∪ acc) ∅ := by
  induction l with
  | nil => cases he
  | cons p rest ih =>
    rcases List.mem_cons.mp he with h | h
    · subst h
      simp [List.foldr_cons, Finset.mem_union, List.mem_toFinset, hx]
    · simp only [List.foldr_cons, Finset.mem_union]
      exact Or.inr (ih h)

theorem mem_allTargets_of_mem {nfa : NFA'} {e : (Nat × Label) × List Nat}
    (he : e ∈ nfa.transitions) {x : Nat} (hx : x ∈ e.2) : x ∈ allTargets nfa :=
  mem_targets_foldr he hx

theorem epsSucc_subset_allTargets (nfa : NFA') (s : Nat) :
    ∀ x ∈ epsSucc nfa s, x ∈ allTargets nfa := by
  intro x hx
  unfold epsSucc at hx
  cases h : dict_get nfa.transitions (s, Label.eps) with
  | none => rw [h] at hx; simp at hx
  | some l =>
    rw [h] at hx
    simp at hx
    exact mem_allTargets_of_mem (dict_get_mem h) hx

theorem symSucc_subset_allTargets (nfa : NFA') (s : Nat) (c : Sym) :
    ∀ x ∈ symSucc nfa s c, x ∈ allTargets nfa := by
  intro x hx
  unfold symSucc at hx
  cases h : dict_get nfa.transitions (s, Label.sym c) with
  | none => rw [h] at hx; simp at hx
  | some l =>
    rw [h] at hx
    simp at hx
    exact mem_allTargets_of_mem (dict_get_mem h) hx

theorem ecPush_pos {c : Finset Nat} {s : List Nat} {t : Nat} (ht : t ∈ c) :
    ecPush (c, s) t = (c, s) := by
  unfold ecPush
  exact if_pos ht

theorem ecPush_neg {c : Finset Nat} {s : List Nat} {t : Nat} (ht : t ∉ c) :
    ecPush (c, s) t = (insert t c, t :: s) := by
  unfold ecPush
  exact if_neg ht

theorem mem_finsetList {s : Finset Nat} {x : Nat} : x ∈ finsetList s ↔ x ∈ s := by
  unfold finsetList
  rw [List.mem_filter]
  constructor
  · rintro ⟨_, h⟩
    exact of_decide_eq_true h
  · intro h
    refine ⟨List.mem_range.mpr ?_, decide_eq_true h⟩
    have hle : x ≤ s.sup id := Finset.le_sup (f := id) h
    omega

theorem finsetList_nodup (s : Finset Nat) : (finsetList s).Nodup :=
  List.Nodup.filter _ (List.nodup_range _)

theorem finsetList_length (s : Finset Nat) : (finsetList s).length = s.card := by
  have ht : (finsetList s).toFinset = s := by
    ext x
    rw [List.mem_toFinset]
    exact mem_finsetList
  calc (finsetList s).length = (finsetList s).toFinset.card :=
        (List.toFinset_card_of_nodup (finsetList_nodup s)).symm
    _ = s.card := by rw [ht]

@[simp] theorem mem_move_nfa {nfa : NFA'} {S : Finset Nat} {c : Sym} {x : Nat} :
    x ∈ move_nfa nfa S c ↔ ∃ s ∈ S, x ∈ symSucc nfa s c := by
  unfold move_nfa
  simp [Finset.mem_biUnion]

theorem move_nfa_subset_allTargets (nfa : NFA') (S : Finset Nat) (c : Sym) :
    move_nfa nfa S c ⊆ allTargets nfa := by
  intro x hx
  rcases mem_move_nfa.mp hx with ⟨s, _, hs⟩
  exact symSucc_subset_allTargets nfa s c x hs

theorem ecPush_fold_closure (ts : List Nat) :
    ∀ (c : Finset Nat) (s : List Nat),
      (ts.foldl ecPush (c, s)).1 = c ∪ ts.toFinset := by
  induction ts with
  | nil => intro c s; simp
  | cons t ts ih =>
    intro c s
    rw [List.foldl_cons]
    by_cases ht : t ∈ c
    · rw [ecPush_pos ht, ih]
      ext x
      simp only [Finset.mem_union, List.toFinset_cons, Finset.mem_insert]
      constructor
      · rintro (h | h) <;> [exact Or.inl h; exact Or.inr (Or.inr h)]
      · rintro (h | h | h)
        · exact Or.inl h
        · subst h; exact Or.inl ht
        · exact Or.inr h
    · rw [ecPush_neg ht, ih]
      ext x
      simp only [Finset.mem_union, Finset.mem_insert, List.toFinset_cons]
      tauto

theorem ecPush_fold_stack (ts : List Nat) :
    ∀ (c : Finset Nat) (s : List Nat) (x : Nat),
      x ∈ (ts.foldl ecPush (c, s)).2 ↔ x ∈ s ∨ (x ∈ ts ∧ x ∉ c) := by
  induction ts with
  | nil => intro c s x; simp
  | cons t ts ih =>
    intro c s x
    rw [List.foldl_cons]
    by_cases ht : t ∈ c
    · rw [ecPush_pos ht, ih]
      constructor
      · rintro (h | ⟨h1, h2⟩)
        · exact Or.inl h
        · exact Or.inr ⟨List.mem_cons_of_mem _ h1, h2⟩
      · rintro (h | ⟨h1, h2⟩)
        · exact Or.inl h
        · rcases List.mem_cons.mp h1 with h1 | h1
          · subst h1; exact absurd ht h2
          · exact Or.inr ⟨h1, h2⟩
    · rw [ecPush_neg ht, ih]
      constructor
      · rintro (h | ⟨h1, h2⟩)
        · rcases List.mem_cons.mp h with h | h
          · subst h; exact Or.inr ⟨List.mem_cons_self _ _, ht⟩
          · exact Or.inl h
        · exact Or.inr ⟨List.mem_cons_of_mem _ h1, fun hx => h2 (Finset.mem_insert_of_mem hx)⟩
      · rintro (h | ⟨h1, h2⟩)
        · exact Or.inl (List.mem_cons_of_mem _ h)
        · rcases List.mem_cons.mp h1 with h1 | h1
          · subst h1; exact Or.inl (List.mem_cons_self _ _)
          · by_cases hx : x = t
            · subst hx; exact Or.inl (List.mem_cons_self _ _)
            · exact Or.inr ⟨h1, fun hc => h2 (Finset.mem_insert.mp hc |>.resolve_left hx)⟩

theorem ecPush_fold_length (ts : List Nat) :
    ∀ (c : Finset Nat) (s : List Nat),
      (ts.foldl ecPush (c, s)).2.length = s.length + (ts.toFinset \ c).card := by
  induction ts with
  | nil => intro c s; simp
  | cons t ts ih =>
    intro c s
    rw [List.foldl_cons]
    by_cases ht : t ∈ c
    · rw [ecPush_pos ht, ih]
      have hset2 : (t :: ts).toFinset \ c = ts.toFinset \ c := by
        ext x
        simp only [List.toFinset_cons, Finset.mem_sdiff, Finset.mem_insert]
        constructor
        · rintro ⟨h1 | h1, h2⟩
          · subst h1; exact absurd ht h2
          · exact ⟨h1, h2⟩
        · rintro ⟨h1, h2⟩; exact ⟨Or.inr h1, h2⟩
      rw [hset2]
    · rw [ecPush_neg ht, ih]
      have hset : (t :: ts).toFinset \ c = insert t (ts.toFinset \ insert t c) := by
        ext x
        simp only [List.toFinset_cons, Finset.mem_sdiff, Finset.mem_insert]
        constructor
        · rintro ⟨h1 | h1, h2⟩
          · exact Or.inl h1
          · by_cases hx : x = t
            · exact Or.inl hx
            · exact Or.inr ⟨h1, fun h => h.elim hx h2⟩
        · rintro (h | ⟨h1, h2⟩)
          · subst h; exact ⟨Or.inl rfl, ht⟩
          · exact ⟨Or.inr h1, fun h => h2 (Or.inr h)⟩
      rw [hset, Finset.card_insert_of_not_mem (by simp), List.length_cons]
      omega

theorem ec_loop_mono (nfa : NFA') :
    ∀ (fuel : Nat) (c : Finset Nat) (stack : List Nat),
      c ⊆ ec_loop nfa fuel c stack := by
  intro fuel
  induction fuel with
  | zero => intro c stack; rw [ec_loop]
  | succ fuel ih =>
    intro c stack
    cases stack with
    | nil => rw [ec_loop]
    | cons state rest =>
      rw [ec_loop]
      cases h : dict_get nfa.transitions (state, Label.eps) with
      | none => exact ih c rest
      | some ts =>
        simp only []
        refine Finset.Subset.trans ?_ (ih _ _)
        rw [ecPush_fold_closure]
        exact Finset.subset_union_left

theorem ec_loop_closed (nfa : NFA') :
    ∀ (fuel : Nat) (c : Finset Nat) (stack : List Nat),
      (∀ x ∈ stack, x ∈ c) →
      (∀ x ∈ c, (∀ y ∈ epsSucc nfa x, y ∈ c) ∨ x ∈ stack) →
      stack.length + ((allTargets nfa) \ c).card ≤ fuel →
      ∀ x ∈ ec_loop nfa fuel c stack, ∀ y ∈ epsSucc nfa x, y ∈ ec_loop nfa fuel c stack := by
  intro fuel
  induction fuel with
  | zero =>
    intro c stack h1 h2 hm x hx y hy
    have hstack : stack = [] := List.eq_nil_of_length_eq_zero (by omega)
    subst hstack
    rw [ec_loop] at hx ⊢
    exact ((h2 x hx).resolve_right (by simp)) y hy
  | succ fuel ih =>
    intro c stack h1 h2 hm
    cases stack with
    | nil =>
      intro x hx y hy
      rw [ec_loop] at hx ⊢
      exact ((h2 x hx).resolve_right (by simp)) y hy
    | cons state rest =>
      rw [ec_loop]
      cases h : dict_get nfa.transitions (state, Label.eps) with
      | none =>
        have hsucc : epsSucc nfa state = [] := by unfold epsSucc; rw [h]; rfl
        refine ih c rest (fun x hx => h1 x (List.mem_cons_of_mem _ hx)) ?_ ?_
        · intro x hx
          rcases h2 x hx with hc | hs
          · exact Or.inl hc
          · rcases List.mem_cons.mp hs with hs | hs
            · subst hs; exact Or.inl (by rw [hsucc]; intro y hy; cases hy)
            · exact Or.inr hs
        · simp only [List.length_cons] at hm; omega
      | some ts =>
        simp only []
        have hsucc : epsSucc nfa state = ts := by unfold epsSucc; rw [h]; rfl
        have hts : ∀ y ∈ ts, y ∈ allTargets nfa := by
          intro y hy
          exact epsSucc_subset_allTargets nfa state y (by rw [hsucc]; exact hy)
        have hc' : (ts.foldl ecPush (c, rest)).1 = c ∪ ts.toFinset :=
          ecPush_fold_closure ts c rest
        refine ih _ _ ?_ ?_ ?_
        · intro x hx
          rw [ecPush_fold_stack] at hx
          rw [hc']
          rcases hx with hx | ⟨hx, _⟩
          · exact Finset.mem_union_left _ (h1 x (List.mem_cons_of_mem _ hx))
          · exact Finset.mem_union_right _ (List.mem_toFinset.mpr hx)
        · intro x hx
          rw [hc'] at hx
          rcases Finset.mem_union.mp hx with hx | hx
          · rcases h2 x hx with hcl | hs
            · exact Or.inl (fun y hy => by rw [hc']; exact Finset.mem_union_left _ (hcl y hy))
            · rcases List.mem_cons.mp hs with hs | hs
              · subst hs
                refine Or.inl (fun y hy => ?_)
                rw [hc']
                exact Finset.mem_union_right _ (List.mem_toFinset.mpr (hsucc ▸ hy))
              · exact Or.inr ((ecPush_fold_stack ts c rest x).mpr (Or.inl hs))
          · by_cases hxc : x ∈ c
            · rcases h2 x hxc with hcl | hs
              · exact Or.inl (fun y hy => by rw [hc']; exact Finset.mem_union_left _ (hcl y hy))
              · rcases List.mem_cons.mp hs with hs | hs
                · subst hs
                  refine Or.inl (fun y hy => ?_)
                  rw [hc']
                  exact Finset.mem_union_right _ (List.mem_toFinset.mpr (hsucc ▸ hy))
                · exact Or.inr ((ecPush_fold_stack ts c rest x).mpr (Or.inl hs))
            · exact Or.inr ((ecPush_fold_stack ts c rest x).mpr
                (Or.inr ⟨List.mem_toFinset.mp hx, hxc⟩))
        · rw [ecPush_fold_length, hc']
          have hsub : ts.toFinset \ c ⊆ allTargets nfa \ c := by
            intro y hy
            rcases Finset.mem_sdiff.mp hy with ⟨hy1, hy2⟩
            exact Finset.mem_sdiff.mpr ⟨hts y (List.mem_toFinset.mp hy1), hy2⟩
          have hdiff : allTargets nfa \ (c ∪ ts.toFinset) = (allTargets nfa \ c) \ (ts.toFinset \ c) := by
            ext y
            simp only [Finset.mem_sdiff, Finset.mem_union]
            tauto
          have hcard : (allTargets nfa \ (c ∪ ts.toFinset)).card
              = (allTargets nfa \ c).card - (ts.toFinset \ c).card := by
            rw [hdiff, Finset.card_sdiff hsub]
          have hle : (ts.toFinset \ c).card ≤ (allTargets nfa \ c).card :=
            Finset.card_le_card hsub
          simp only [List.length_cons] at hm
          omega

theorem ec_loop_sound (nfa : NFA') (R : Nat → Prop)
    (hR : ∀ x y, R x → y ∈ epsSucc nfa x → R y) :
    ∀ (fuel : Nat) (c : Finset Nat) (stack : List Nat),
      (∀ x ∈ stack, x ∈ c) →
      (∀ x ∈ c, R x) →
      ∀ x ∈ ec_loop nfa fuel c stack, R x := by
  intro fuel
  induction fuel with
  | zero => intro c stack _ hc x hx; rw [ec_loop] at hx; exact hc x hx
  | succ fuel ih =>
    intro c stack h1 hc
    cases stack with
    | nil => intro x hx; rw [ec_loop] at hx; exact hc x hx
    | cons state rest =>
      rw [ec_loop]
      cases h : dict_get nfa.transitions (state, Label.eps) with
      | none => exact ih c rest (fun x hx => h1 x (List.mem_cons_of_mem _ hx)) hc
      | some ts =>
        simp only []
        have hsucc : epsSucc nfa state = ts := by unfold epsSucc; rw [h]; rfl
        refine ih _ _ ?_ ?_
        · intro x hx
          rw [ecPush_fold_stack] at hx
          rw [ecPush_fold_closure]
          rcases hx with hx | ⟨hx, _⟩
          · exact Finset.mem_union_left _ (h1 x (List.mem_cons_of_mem _ hx))
          · exact Finset.mem_union_right _ (List.mem_toFinset.mpr hx)
        · intro x hx
          rw [ecPush_fold_closure] at hx
          rcases Finset.mem_union.mp hx with hx | hx
          · exact hc x hx
          · exact hR state x (hc state (h1 state (List.mem_cons_self _ _)))
              (hsucc ▸ List.mem_toFinset.mp hx)

theorem subset_epsilon_closure (nfa : NFA') (X : Finset Nat) :
    X ⊆ epsilon_closure nfa X := by
  unfold epsilon_closure
  exact ec_loop_mono nfa _ X _

theorem epsilon_closure_closed (nfa : NFA') (X : Finset Nat) :
    ∀ x ∈ epsilon_closure nfa X, ∀ y ∈ epsSucc nfa x, y ∈ epsilon_closure nfa X := by
  unfold epsilon_closure
  refine ec_loop_closed nfa _ X _ ?_ ?_ ?_
  · intro x hx; exact mem_finsetList.mp hx
  · intro x hx; exact Or.inr (mem_finsetList.mpr hx)
  · unfold ecFuel
    rw [finsetList_length]
    have := Finset.card_le_card (Finset.sdiff_subset (s := allTargets nfa) (t := X))
    omega

/-- Characterization of `epsilon_closure`: its members are exactly the
states epsilon-reachable from the input set. -/
theorem mem_epsilon_closure {nfa : NFA'} {X : Finset Nat} {x : Nat} :
    x ∈ epsilon_closure nfa X ↔ ∃ s ∈ X, epsReaches nfa s x := by
  constructor
  · intro hx
    unfold epsilon_closure at hx
    refine ec_loop_sound nfa (fun x => ∃ s ∈ X, epsReaches nfa s x) ?_ _ X _ ?_ ?_ x hx
    · rintro a b ⟨s, hs, hreach⟩ hb
      exact ⟨s, hs, Relation.ReflTransGen.tail hreach hb⟩
    · intro y hy; exact mem_finsetList.mp hy
    · intro y hy; exact ⟨y, hy, Relation.ReflTransGen.refl⟩
  · rintro ⟨s, hs, hreach⟩
    induction hreach with
    | refl => exact subset_epsilon_closure nfa X hs
    | tail _ hstep ih => exact epsilon_closure_closed nfa X _ ih _ hstep

theorem epsilon_closure_subset_union (nfa : NFA') (X : Finset Nat) :
    epsilon_closure nfa X ⊆ X ∪ allTargets nfa := by
  intro x hx
  rcases mem_epsilon_closure.mp hx with ⟨s, hs, hreach⟩
  rcases (Relation.ReflTransGen.cases_tail hreach) with h | ⟨b, _, hstep⟩
  · subst h; exact Finset.mem_union_left _ hs
  · exact Finset.mem_union_right _ (epsSucc_subset_allTargets nfa b x hstep)

theorem epsilon_closure_empty (nfa : NFA') : epsilon_closure nfa ∅ = ∅ := by
  ext x
  simp only [Finset.not_mem_empty, iff_false]
  intro hx
  rcases mem_epsilon_closure.mp hx with ⟨s, hs, _⟩
  exact absurd hs (Finset.not_mem_empty s)

theorem dict_get_eq_none {α β : Type} [DecidableEq α] {l : List (α × β)} {k : α}
    (h : ∀ e ∈ l, e.1 ≠ k) : dict_get l k = none := by
  induction l with
  | nil => rfl
  | cons p rest ih =>
    rw [show p = (p.1, p.2) from rfl, dict_get_cons]
    rw [if_neg (fun hx => h p (List.mem_cons_self _ _) hx.symm)]
    exact ih (fun e he => h e (List.mem_cons_of_mem _ he))

theorem tmStateRow_eq (dfa : DFA') (acc : List ((Nat × Sym) × (Nat × Sym × Move)))
    (t : Nat) :
    tmStateRow dfa acc t =
      ((t, Sym.blank), deciderRule dfa t Sym.blank)
        :: ((t, Sym.b), deciderRule dfa t Sym.b)
        :: ((t, Sym.a), deciderRule dfa t Sym.a) :: acc := by
  unfold tmStateRow tmSymEntry INPUT_ALPHABET deciderRule
  simp [List.foldl]

theorem tm_foldl_lookup (dfa : DFA') (l : List Nat) :
    ∀ (acc : List ((Nat × Sym) × (Nat × Sym × Move))) (s : Nat) (c : Sym),
      dict_get (l.foldl (tmStateRow dfa) acc) (s, c) =
        if s ∈ l then some (deciderRule dfa s c) else dict_get acc (s, c) := by
  induction l with
  | nil => intro acc s c; simp
  | cons t rest ih =>
    intro acc s c
    rw [List.foldl_cons, ih]
    by_cases hs : s ∈ rest
    · rw [if_pos hs, if_pos (List.mem_cons_of_mem _ hs)]
    · rw [if_neg hs, tmStateRow_eq]
      by_cases hst : s = t
      · subst hst
        rw [if_pos (List.mem_cons_self _ _)]
        cases c <;> simp [dict_get]
      · have hne : ∀ c' : Sym, ((s, c) : Nat × Sym) ≠ (t, c') := by
          intro c' h
          exact hst (congrArg Prod.fst h)
        rw [dict_get_cons, if_neg (hne _), dict_get_cons, if_neg (hne _),
          dict_get_cons, if_neg (hne _)]
        rw [if_neg (fun h => (List.mem_cons.mp h).elim hst hs)]

theorem decider_lookup_mem {dfa : DFA'} {s : Nat} (hs : s ∈ dfa.states) (c : Sym) :
    dict_get (dfa_to_tm_decider dfa).transitions (s, c) = some (deciderRule dfa s c) := by
  show dict_get (dfa.states.foldl (tmStateRow dfa) []) (s, c) = _
  rw [tm_foldl_lookup, if_pos hs]

theorem decider_lookup_not_mem {dfa : DFA'} {s : Nat} (hs : s ∉ dfa.states) (c : Sym) :
    dict_get (dfa_to_tm_decider dfa).transitions (s, c) = none := by
  show dict_get (dfa.states.foldl (tmStateRow dfa) []) (s, c) = none
  rw [tm_foldl_lookup, if_neg hs]
  rfl

theorem set_append_self {α : Type} : ∀ (p : List α) (l : List α) (x : α),
    (p ++ x :: l).set p.length x = p ++ x :: l := by
  intro p
  induction p with
  | nil => intro l x; rfl
  | cons y p ih =>
    intro l x
    simp only [List.cons_append, List.length_cons, List.set_cons_succ]
    rw [ih]

theorem getD_append_length {α : Type} : ∀ (p : List α) (l : List α) (x d : α),
    (p ++ x :: l).getD p.length d = x := by
  intro p
  induction p with
  | nil => intro l x d; rfl
  | cons y p ih =>
    intro l x d
    simp only [List.cons_append, List.length_cons]
    exact ih l x d

theorem extend_tape_in_range (bs : Sym) (tape : List Sym) (h : Int)
    (h0 : 0 ≤ h) (h1 : h < (tape.length : Int)) :
    extend_tape bs tape h = (tape, h) := by
  unfold extend_tape
  have hneg : ¬ h < 0 := by omega
  simp only [if_neg hneg]
  rw [if_neg (show ¬ (tape.length : Int) ≤ h by omega)]

theorem decider_accept_states (dfa : DFA') :
    (dfa_to_tm_decider dfa).accept_states = [dfa.states.length] := rfl

theorem decider_reject_states (dfa : DFA') :
    (dfa_to_tm_decider dfa).reject_states = [dfa.states.length + 1] := rfl

theorem decider_blank (dfa : DFA') : (dfa_to_tm_decider dfa).blank = Sym.blank := rfl

theorem decider_start (dfa : DFA') :
    (dfa_to_tm_decider dfa).start_state = dfa.start_state := rfl

theorem deciderRule_eta (dfa : DFA') (s : Nat) (c : Sym) :
    deciderRule dfa s c = ((deciderRule dfa s c).1, c, Move.R) := by
  cases c <;> rfl

theorem deciderRule_blank_fst (dfa : DFA') (s : Nat) :
    (deciderRule dfa s Sym.blank).1 =
      if s ∈ dfa.accept_states then dfa.states.length else dfa.states.length + 1 := rfl

theorem sim_run_succ (tm : TM) (ms : Option Nat) (fuel : Nat) (st : SimSt) :
    sim_run tm ms (fuel + 1) st =
      match sim_loop_body tm ms st with
      | .ret v trace => some (v, trace)
      | .next st' => sim_run tm ms fuel st' := rfl

theorem sim_loop_body_not_final (tm : TM) (ms : Option Nat) (st : SimSt)
    (ha : st.state ∉ tm.accept_states) (hr : st.state ∉ tm.reject_states)
    (hb : budget_exhausted ms st.steps = false) :
    sim_loop_body tm ms st =
      (match dict_get tm.transitions (st.state, read_symbol tm.blank st.tape st.head) with
      | none => LoopRes.ret 0 (st.configurations ++ [⟨st.state, st.tape, st.head⟩])
      | some (nxt_st, tape_char, direction) =>
        LoopRes.next ⟨(extend_tape tm.blank st.tape st.head).1.set
            (extend_tape tm.blank st.tape st.head).2.toNat tape_char,
          (if direction = Move.R then (extend_tape tm.blank st.tape st.head).2 + 1
            else (extend_tape tm.blank st.tape st.head).2 - 1),
          nxt_st, st.configurations ++ [⟨st.state, st.tape, st.head⟩], st.steps + 1⟩) := by
  unfold sim_loop_body read_symbol
  rw [if_neg ha, if_neg hr, hb]
  rfl

theorem sim_loop_body_accept (tm : TM) (ms : Option Nat) (st : SimSt)
    (ha : st.state ∈ tm.accept_states) :
    sim_loop_body tm ms st =
      LoopRes.ret 1 (st.configurations ++ [⟨st.state, st.tape, st.head⟩]) := by
  unfold sim_loop_body
  rw [if_pos ha]

theorem sim_loop_body_reject (tm : TM) (ms : Option Nat) (st : SimSt)
    (ha : st.state ∉ tm.accept_states) (hr : st.state ∈ tm.reject_states) :
    sim_loop_body tm ms st =
      LoopRes.ret 0 (st.configurations ++ [⟨st.state, st.tape, st.head⟩]) := by
  unfold sim_loop_body
  rw [if_neg ha, if_pos hr]

theorem deciderVerdict_nil (dfa : DFA') (s : Nat) :
    deciderVerdict dfa s [] =
      if s = dfa.states.length then 1
      else if s = dfa.states.length + 1 then 0
      else if s ∈ dfa.states then (if s ∈ dfa.accept_states then 1 else 0)
      else 0 := rfl

theorem deciderVerdict_cons (dfa : DFA') (s : Nat) (c : Sym) (v : List Sym) :
    deciderVerdict dfa s (c :: v) =
      if s = dfa.states.length then 1
      else if s = dfa.states.length + 1 then 0
      else if s ∈ dfa.states then deciderVerdict dfa (deciderRule dfa s c).1 v
      else 0 := rfl

theorem decider_step (dfa : DFA') (p rest : List Sym) (c : Sym) (s : Nat)
    (cs : List Config) (m : Nat) (hs : s ∈ dfa.states)
    (hA : s ≠ dfa.states.length) (hR : s ≠ dfa.states.length + 1) :
    sim_loop_body (dfa_to_tm_decider dfa) none
        ⟨p ++ c :: rest, (p.length : Int), s, cs, m⟩
      = LoopRes.next ⟨p ++ c :: rest, (p.length : Int) + 1, (deciderRule dfa s c).1,
          cs ++ [⟨s, p ++ c :: rest, (p.length : Int)⟩], m + 1⟩ := by
  have hA' : s ∉ (dfa_to_tm_decider dfa).accept_states := by
    rw [decider_accept_states]; simp [hA]
  have hR' : s ∉ (dfa_to_tm_decider dfa).reject_states := by
    rw [decider_reject_states]; simp [hR]
  have hlen : ((p.length : Int)) < ((p ++ c :: rest).length : Int) := by
    rw [List.length_append, List.length_cons]
    push_cast
    omega
  have hextr : extend_tape Sym.blank (p ++ c :: rest) (p.length : Int)
      = (p ++ c :: rest, (p.length : Int)) :=
    extend_tape_in_range _ _ _ (Int.natCast_nonneg _) hlen
  have hread : read_symbol Sym.blank (p ++ c :: rest) (p.length : Int) = c := by
    unfold read_symbol
    rw [hextr]
    simp only [Int.toNat_natCast]
    exact getD_append_length p rest c Sym.blank
  have hlk : dict_get (dfa_to_tm_decider dfa).transitions (s, c)
      = some ((deciderRule dfa s c).1, c, Move.R) := by
    rw [decider_lookup_mem hs c]
    exact congrArg some (deciderRule_eta dfa s c)
  rw [sim_loop_body_not_final (dfa_to_tm_decider dfa) none
    ⟨p ++ c :: rest, (p.length : Int), s, cs, m⟩ hA' hR' rfl, decider_blank, hread, hlk]
  simp only [hextr, Int.toNat_natCast]
  rw [set_append_self]
  simp

theorem decider_step_stuck (dfa : DFA') (p rest : List Sym) (c : Sym) (s : Nat)
    (cs : List Config) (m : Nat) (hs : s ∉ dfa.states)
    (hA : s ≠ dfa.states.length) (hR : s ≠ dfa.states.length + 1) :
    sim_loop_body (dfa_to_tm_decider dfa) none
        ⟨p ++ c :: rest, (p.length : Int), s, cs, m⟩
      = LoopRes.ret 0 (cs ++ [⟨s, p ++ c :: rest, (p.length : Int)⟩]) := by
  have hA' : s ∉ (dfa_to_tm_decider dfa).accept_states := by
    rw [decider_accept_states]; simp [hA]
  have hR' : s ∉ (dfa_to_tm_decider dfa).reject_states := by
    rw [decider_reject_states]; simp [hR]
  have hlen : ((p.length : Int)) < ((p ++ c :: rest).length : Int) := by
    rw [List.length_append, List.length_cons]
    push_cast
    omega
  have hextr : extend_tape Sym.blank (p ++ c :: rest) (p.length : Int)
      = (p ++ c :: rest, (p.length : Int)) :=
    extend_tape_in_range _ _ _ (Int.natCast_nonneg _) hlen
  have hread : read_symbol Sym.blank (p ++ c :: rest) (p.length : Int) = c := by
    unfold read_symbol
    rw [hextr]
    simp only [Int.toNat_natCast]
    exact getD_append_length p rest c Sym.blank
  rw [sim_loop_body_not_final (dfa_to_tm_decider dfa) none
    ⟨p ++ c :: rest, (p.length : Int), s, cs, m⟩ hA' hR' rfl, decider_blank, hread,
    decider_lookup_not_mem hs c]

/-- The complete run of the constructed decider from a prefix position:
with the suffix `v` still unread at head position `|p|`, the simulator
halts within `|v| + 2` iterations with the verdict `deciderVerdict`, the
tape is never modified in any recorded configuration, and the head of the
`i`-th newly recorded configuration is `|p| + i`. -/
theorem decider_run (dfa : DFA') :
    ∀ (v p : List Sym) (s : Nat) (cs : List Config) (m : Nat),
      ∃ tr, sim_run (dfa_to_tm_decider dfa) none (v.length + 2)
          ⟨(p ++ v) ++ [Sym.blank], (p.length : Int), s, cs, m⟩
        = some (deciderVerdict dfa s v, cs ++ tr) ∧
        ∀ i (hi : i < tr.length),
          (tr.get ⟨i, hi⟩).head = ((p.length + i : Nat) : Int) ∧
          (tr.get ⟨i, hi⟩).tape = (p ++ v) ++ [Sym.blank] := by
  intro v
  induction v with
  | nil =>
    intro p s cs m
    have htape : (p ++ ([] : List Sym)) ++ [Sym.blank] = p ++ Sym.blank :: [] := by simp
    by_cases hsN : s = dfa.states.length
    · refine ⟨[⟨s, (p ++ []) ++ [Sym.blank], (p.length : Int)⟩], ?_, ?_⟩
      · rw [show ([] : List Sym).length + 2 = 1 + 1 from rfl, sim_run_succ,
          sim_loop_body_accept _ _ _ (by rw [decider_accept_states]; simp [hsN])]
        simp [deciderVerdict_nil, hsN]
      · intro i hi
        have hi0 : i = 0 := by simpa using hi
        subst hi0
        exact ⟨by simp, rfl⟩
    · by_cases hsR : s = dfa.states.length + 1
      · refine ⟨[⟨s, (p ++ []) ++ [Sym.blank], (p.length : Int)⟩], ?_, ?_⟩
        · rw [show ([] : List Sym).length + 2 = 1 + 1 from rfl, sim_run_succ,
            sim_loop_body_reject _ _ _ (by rw [decider_accept_states]; simp [hsN])
              (by rw [decider_reject_states]; simp [hsR])]
          simp [deciderVerdict_nil, hsN, hsR]
        · intro i hi
          have hi0 : i = 0 := by simpa using hi
          subst hi0
          exact ⟨by simp, rfl⟩
      · by_cases hsS : s ∈ dfa.states
        · have hstep := decider_step dfa p [] Sym.blank s cs m hsS hsN hsR
          rw [← htape] at hstep
          refine ⟨[⟨s, (p ++ []) ++ [Sym.blank], (p.length : Int)⟩,
            ⟨(deciderRule dfa s Sym.blank).1, (p ++ []) ++ [Sym.blank],
              (p.length : Int) + 1⟩], ?_, ?_⟩
          · rw [show ([] : List Sym).length + 2 = 1 + 1 from rfl, sim_run_succ, hstep]
            simp only []
            by_cases hacc : s ∈ dfa.accept_states
            · rw [sim_run_succ, sim_loop_body_accept _ _ _
                (by rw [decider_accept_states, deciderRule_blank_fst, if_pos hacc]; simp)]
              simp [deciderVerdict_nil, hsN, hsR, hsS, hacc, List.append_assoc]
            · rw [sim_run_succ, sim_loop_body_reject _ _ _
                (by rw [decider_accept_states, deciderRule_blank_fst, if_neg hacc]; simp)
                (by rw [decider_reject_states, deciderRule_blank_fst, if_neg hacc]; simp)]
              simp [deciderVerdict_nil, hsN, hsR, hsS, hacc, List.append_assoc]
          · intro i hi
            match i, hi with
            | 0, _ => exact ⟨by simp, rfl⟩
            | 1, _ =>
              refine ⟨?_, rfl⟩
              show (p.length : Int) + 1 = ((p.length + 1 : Nat) : Int)
              push_cast
              ring
        · refine ⟨[⟨s, (p ++ []) ++ [Sym.blank], (p.length : Int)⟩], ?_, ?_⟩
          · have hstep := decider_step_stuck dfa p [] Sym.blank s cs m hsS hsN hsR
            rw [← htape] at hstep
            rw [show ([] : List Sym).length + 2 = 1 + 1 from rfl, sim_run_succ, hstep]
            simp [deciderVerdict_nil, hsN, hsR, hsS]
          · intro i hi
            have hi0 : i = 0 := by simpa using hi
            subst hi0
            exact ⟨by simp, rfl⟩
  | cons c v ih =>
    intro p s cs m
    have htape : (p ++ (c :: v)) ++ [Sym.blank] = p ++ c :: (v ++ [Sym.blank]) := by simp
    by_cases hsN : s = dfa.states.length
    · refine ⟨[⟨s, (p ++ (c :: v)) ++ [Sym.blank], (p.length : Int)⟩], ?_, ?_⟩
      · rw [show (c :: v).length + 2 = (v.length + 2) + 1 from rfl, sim_run_succ,
          sim_loop_body_accept _ _ _ (by rw [decider_accept_states]; simp [hsN])]
        simp [deciderVerdict_cons, hsN]
      · intro i hi
        have hi0 : i = 0 := by simpa using hi
        subst hi0
        exact ⟨by simp, rfl⟩
    · by_cases hsR : s = dfa.states.length + 1
      · refine ⟨[⟨s, (p ++ (c :: v)) ++ [Sym.blank], (p.length : Int)⟩], ?_, ?_⟩
        · rw [show (c :: v).length + 2 = (v.length + 2) + 1 from rfl, sim_run_succ,
            sim_loop_body_reject _ _ _ (by rw [decider_accept_states]; simp [hsN])
              (by rw [decider_reject_states]; simp [hsR])]
          simp [deciderVerdict_cons, hsN, hsR]
        · intro i hi
          have hi0 : i = 0 := by simpa using hi
          subst hi0
          exact ⟨by simp, rfl⟩
      · by_cases hsS : s ∈ dfa.states
        · have hstep := decider_step dfa p (v ++ [Sym.blank]) c s cs m hsS hsN hsR
          rw [← htape] at hstep
          obtain ⟨tr', htr', hprops⟩ := ih (p ++ [c]) ((deciderRule dfa s c).1)
            (cs ++ [⟨s, (p ++ (c :: v)) ++ [Sym.blank], (p.length : Int)⟩]) (m + 1)
          have hlist : ((p ++ [c]) ++ v) ++ [Sym.blank] = (p ++ (c :: v)) ++ [Sym.blank] := by
            simp
          have hheadc : ((p ++ [c]).length : Int) = (p.length : Int) + 1 := by
            rw [List.length_append]
            push_cast
            simp
          rw [hlist, hheadc] at htr'
          refine ⟨⟨s, (p ++ (c :: v)) ++ [Sym.blank], (p.length : Int)⟩ :: tr', ?_, ?_⟩
          · rw [show (c :: v).length + 2 = (v.length + 2) + 1 from rfl, sim_run_succ,
              hstep]
            simp only []
            rw [htr']
            have hverd : deciderVerdict dfa s (c :: v)
                = deciderVerdict dfa (deciderRule dfa s c).1 v := by
              rw [deciderVerdict_cons, if_neg hsN, if_neg hsR, if_pos hsS]
            rw [hverd, List.append_assoc]
            rfl
          · intro i hi
            match i, hi with
            | 0, _ => exact ⟨by simp, rfl⟩
            | Nat.succ n, hi =>
              have hn : n < tr'.length := by rw [List.length_cons] at hi; omega
              obtain ⟨hh, ht⟩ := hprops n hn
              refine ⟨?_, ?_⟩
              · show (tr'.get ⟨n, hn⟩).head = ((p.length + (n + 1) : Nat) : Int)
                rw [hh]
                have hl1 : (p ++ [c]).length = p.length + 1 := by simp
                rw [hl1]
                congr 1
                omega
              · show (tr'.get ⟨n, hn⟩).tape = (p ++ (c :: v)) ++ [Sym.blank]
                rw [ht]
                exact hlist
        · refine ⟨[⟨s, (p ++ (c :: v)) ++ [Sym.blank], (p.length : Int)⟩], ?_, ?_⟩
          · have hstep := decider_step_stuck dfa p (v ++ [Sym.blank]) c s cs m hsS hsN hsR
            rw [← htape] at hstep
            rw [show (c :: v).length + 2 = (v.length + 2) + 1 from rfl, sim_run_succ,
              hstep]
            simp [deciderVerdict_cons, hsN, hsR, hsS]
          · intro i hi
            have hi0 : i = 0 := by simpa using hi
            subst hi0
            exact ⟨by simp, rfl⟩

theorem deciderVerdict_reject (dfa : DFA') :
    ∀ v : List Sym, deciderVerdict dfa (dfa.states.length + 1) v = 0 := by
  intro v
  cases v with
  | nil => rw [deciderVerdict_nil, if_neg (by omega), if_pos rfl]
  | cons c v => rw [deciderVerdict_cons, if_neg (by omega), if_pos rfl]

theorem deciderVerdict_zero_or_one (dfa : DFA') :
    ∀ (v : List Sym) (s : Nat), deciderVerdict dfa s v = 0 ∨ deciderVerdict dfa s v = 1 := by
  intro v
  induction v with
  | nil =>
    intro s
    rw [deciderVerdict_nil]
    by_cases h1 : s = dfa.states.length
    · rw [if_pos h1]; exact Or.inr rfl
    · rw [if_neg h1]
      by_cases h2 : s = dfa.states.length + 1
      · rw [if_pos h2]; exact Or.inl rfl
      · rw [if_neg h2]
        by_cases h3 : s ∈ dfa.states
        · rw [if_pos h3]
          by_cases h4 : s ∈ dfa.accept_states
          · rw [if_pos h4]; exact Or.inr rfl
          · rw [if_neg h4]; exact Or.inl rfl
        · rw [if_neg h3]; exact Or.inl rfl
  | cons c v ih =>
    intro s
    rw [deciderVerdict_cons]
    by_cases h1 : s = dfa.states.length
    · rw [if_pos h1]; exact Or.inr rfl
    · rw [if_neg h1]
      by_cases h2 : s = dfa.states.length + 1
      · rw [if_pos h2]; exact Or.inl rfl
      · rw [if_neg h2]
        by_cases h3 : s ∈ dfa.states
        · rw [if_pos h3]; exact ih _
        · rw [if_neg h3]; exact Or.inl rfl

theorem deciderRule_fst_of_ne_blank (dfa : DFA') (s : Nat) {c : Sym}
    (hc : c ≠ Sym.blank) :
    (deciderRule dfa s c).1 =
      if c ∈ dfa.alphabet then
        (match dict_get dfa.transitions (s, c) with
          | some t => t
          | none => dfa.states.length + 1)
      else dfa.states.length + 1 := by
  cases c with
  | a => rfl
  | b => rfl
  | blank => exact absurd rfl hc

theorem blank_not_mem_of_subset {dfa : DFA'} (halph : Sym.blank ∉ dfa.alphabet)
    {c : Sym} (hc : c ∈ dfa.alphabet) : c ≠ Sym.blank := by
  intro h
  exact halph (h ▸ hc)

/-- On a DFA of the pipeline's shape (states `0..N-1`, transition targets
in range), the decider's verdict from a DFA state agrees with running the
DFA itself: accept iff the DFA run consumes the word and ends accepting. -/
theorem deciderVerdict_eq_dfa_run (dfa : DFA')
    (hshape : dfa.states = List.range dfa.states.length)
    (htargets : ∀ e ∈ dfa.transitions, e.2 ∈ dfa.states)
    (halph : Sym.blank ∉ dfa.alphabet) :
    ∀ (v : List Sym) (s : Nat), s ∈ dfa.states → (∀ c ∈ v, c ∈ dfa.alphabet) →
      deciderVerdict dfa s v =
        (match dfa_run dfa s v with
          | some t => if t ∈ dfa.accept_states then 1 else 0
          | none => 0) := by
  have hlt : ∀ s ∈ dfa.states, s < dfa.states.length := by
    intro s hs
    rw [hshape] at hs
    exact List.mem_range.mp hs
  intro v
  induction v with
  | nil =>
    intro s hs _
    have h := hlt s hs
    rw [deciderVerdict_nil, if_neg (by omega), if_neg (by omega), if_pos hs]
    rfl
  | cons c v ih =>
    intro s hs hv
    have h := hlt s hs
    have hc : c ∈ dfa.alphabet := hv c (List.mem_cons_self _ _)
    rw [deciderVerdict_cons, if_neg (by omega), if_neg (by omega), if_pos hs]
    rw [show dfa_run dfa s (c :: v)
      = (match dict_get dfa.transitions (s, c) with
        | none => none
        | some t => dfa_run dfa t v) from rfl]
    cases hlk : dict_get dfa.transitions (s, c) with
    | none =>
      rw [deciderRule_fst_of_ne_blank dfa s (blank_not_mem_of_subset halph hc),
        if_pos hc, hlk]
      exact deciderVerdict_reject dfa v
    | some t =>
      rw [deciderRule_fst_of_ne_blank dfa s (blank_not_mem_of_subset halph hc),
        if_pos hc, hlk]
      exact ih t (htargets _ (dict_get_mem hlk)) (fun x hx => hv x (List.mem_cons_of_mem _ hx))

theorem sim_run_mono (tm : TM) (ms : Option Nat) :
    ∀ (fuel fuel' : Nat) (st : SimSt) (r : Nat × List Config),
      sim_run tm ms fuel st = some r → fuel ≤ fuel' → sim_run tm ms fuel' st = some r := by
  intro fuel
  induction fuel with
  | zero => intro fuel' st r h; rw [sim_run] at h; cases h
  | succ fuel ih =>
    intro fuel' st r h hle
    rw [sim_run_succ] at h
    obtain ⟨f2, rfl⟩ : ∃ f2, fuel' = f2 + 1 := ⟨fuel' - 1, by omega⟩
    rw [sim_run_succ]
    cases hb : sim_loop_body tm ms st with
    | ret v trace =>
      rw [hb] at h
      exact h
    | next st' =>
      rw [hb] at h
      exact ih f2 st' r h (by omega)

/-- C1: for every DFA of the data model's shape (states are the indices
`0..N-1`, the start state and all transition targets are states, and the
blank is not an alphabet symbol) and every string over the DFA's
alphabet, simulating `dfa_to_tm_decider dfa` returns the accept verdict
`1` exactly when the DFA accepts the string, and the reject verdict `0`
otherwise — including the empty string. -/
theorem tm_fidelity (dfa : DFA')
    (hshape : dfa.states = List.range dfa.states.length)
    (hstart : dfa.start_state ∈ dfa.states)
    (htargets : ∀ e ∈ dfa.transitions, e.2 ∈ dfa.states)
    (halph : Sym.blank ∉ dfa.alphabet)
    (w : List Sym) (hw : ∀ c ∈ w, c ∈ dfa.alphabet) :
    ∃ trace, simulate_tm (dfa_to_tm_decider dfa) w none (w.length + 2)
      = some ((if dfa_accepts dfa w then 1 else 0), trace) := by
  obtain ⟨tr, htr, _⟩ := decider_run dfa w [] dfa.start_state [] 0
  refine ⟨tr, ?_⟩
  have h2 : simulate_tm (dfa_to_tm_decider dfa) w none (w.length + 2)
      = some (deciderVerdict dfa dfa.start_state w, tr) := htr
  rw [h2, deciderVerdict_eq_dfa_run dfa hshape htargets halph w dfa.start_state hstart hw]
  unfold dfa_accepts
  cases hrun : dfa_run dfa dfa.start_state w with
  | none => simp
  | some t => by_cases ht : t ∈ dfa.accept_states <;> simp [ht]

/-- C1 witness: the fidelity theorem applied to the concrete DFA `exDfa`
and input `"a"`, with every hypothesis discharged by computation. -/
theorem tm_fidelity_witness :
    (exDfa.states = List.range exDfa.states.length
      ∧ exDfa.start_state ∈ exDfa.states
      ∧ (∀ e ∈ exDfa.transitions, e.2 ∈ exDfa.states)
      ∧ Sym.blank ∉ exDfa.alphabet
      ∧ (∀ c ∈ [Sym.a], c ∈ exDfa.alphabet))
    ∧ ∃ trace, simulate_tm (dfa_to_tm_decider exDfa) [Sym.a] none ([Sym.a].length + 2)
      = some ((if dfa_accepts exDfa [Sym.a] then 1 else 0), trace) :=
  ⟨⟨by decide, by decide, by decide, by decide, by decide⟩,
    tm_fidelity exDfa (by decide) (by decide) (by decide) (by decide) [Sym.a] (by decide)⟩

/-- C3: for every DFA and every input string, the constructed decider
halts with a 0/1 verdict under `max_steps = none`: `|w| + 2` loop
iterations always suffice, and any larger fuel returns the same result
(the `while True` loop would have returned by then). -/
theorem decider_always_halts (dfa : DFA') (w : List Sym) :
    ∃ (v : Nat) (trace : List Config),
      simulate_tm (dfa_to_tm_decider dfa) w none (w.length + 2) = some (v, trace)
      ∧ (v = 0 ∨ v = 1)
      ∧ ∀ fuel, w.length + 2 ≤ fuel →
          simulate_tm (dfa_to_tm_decider dfa) w none fuel = some (v, trace) := by
  obtain ⟨tr, htr, _⟩ := decider_run dfa w [] dfa.start_state [] 0
  have h2 : simulate_tm (dfa_to_tm_decider dfa) w none (w.length + 2)
      = some (deciderVerdict dfa dfa.start_state w, tr) := htr
  refine ⟨deciderVerdict dfa dfa.start_state w, tr, h2,
    deciderVerdict_zero_or_one dfa w _, ?_⟩
  intro fuel hf
  exact sim_run_mono _ _ _ fuel _ _ h2 hf

/-- C10: for every DFA and every input string, the constructed decider's
head never moves left: the configuration recorded at step `i` has head
position exactly `i` (hence never negative), and its tape is exactly the
input followed by the single appended blank — the tape is never extended
at either end, in particular not at the left. -/
theorem decider_head_monotone (dfa : DFA') (w : List Sym) :
    ∃ (v : Nat) (trace : List Config),
      simulate_tm (dfa_to_tm_decider dfa) w none (w.length + 2) = some (v, trace) ∧
      ∀ i (hi : i < trace.length),
        (trace.get ⟨i, hi⟩).head = (i : Int) ∧
        (trace.get ⟨i, hi⟩).tape = w ++ [Sym.blank] := by
  obtain ⟨tr, htr, hprops⟩ := decider_run dfa w [] dfa.start_state [] 0
  have h2 : simulate_tm (dfa_to_tm_decider dfa) w none (w.length + 2)
      = some (deciderVerdict dfa dfa.start_state w, tr) := htr
  refine ⟨_, tr, h2, ?_⟩
  intro i hi
  obtain ⟨hh, ht⟩ := hprops i hi
  constructor
  · rw [hh]
    simp
  · rw [ht]
    simp

/-- C4: for a DFA of the pipeline's shape whose alphabet is contained in
the fixed outer `INPUT_ALPHABET`, the produced TM transition dictionary
is total over `states × (INPUT_ALPHABET ∪ {blank})` (here every tape
symbol); a pair whose symbol has no DFA transition — because the entry is
absent or the symbol is outside the DFA's alphabet — maps to the reject
sink; the blank maps to the accept sink exactly on accepting states; and
the two sinks `N` and `N+1` have no outgoing entries. -/
theorem decider_table_total (dfa : DFA')
    (hshape : dfa.states = List.range dfa.states.length)
    (halph : ∀ c ∈ dfa.alphabet, c ∈ INPUT_ALPHABET) :
    (∀ s ∈ dfa.states, ∀ c : Sym,
      ∃ r, dict_get (dfa_to_tm_decider dfa).transitions (s, c) = some r)
    ∧ (∀ s ∈ dfa.states, ∀ c ∈ INPUT_ALPHABET,
        (dict_get dfa.transitions (s, c) = none ∨ c ∉ dfa.alphabet) →
        dict_get (dfa_to_tm_decider dfa).transitions (s, c)
          = some (dfa.states.length + 1, c, Move.R))
    ∧ (∀ s ∈ dfa.states,
        dict_get (dfa_to_tm_decider dfa).transitions (s, Sym.blank)
          = some ((if s ∈ dfa.accept_states then dfa.states.length
              else dfa.states.length + 1), Sym.blank, Move.R))
    ∧ (∀ c : Sym,
        dict_get (dfa_to_tm_decider dfa).transitions (dfa.states.length, c) = none
        ∧ dict_get (dfa_to_tm_decider dfa).transitions (dfa.states.length + 1, c) = none) := by
  refine ⟨?_, ?_, ?_, ?_⟩
  · intro s hs c
    exact ⟨deciderRule dfa s c, decider_lookup_mem hs c⟩
  · intro s hs c hc hmiss
    rw [decider_lookup_mem hs c]
    have hcb : c ≠ Sym.blank := by
      intro h
      subst h
      simp [INPUT_ALPHABET] at hc
    rw [deciderRule_eta dfa s c, deciderRule_fst_of_ne_blank dfa s hcb]
    rcases hmiss with hmiss | hmiss
    · by_cases hca : c ∈ dfa.alphabet
      · rw [if_pos hca, hmiss]
      · rw [if_neg hca]
    · rw [if_neg hmiss]
  · intro s hs
    rw [decider_lookup_mem hs Sym.blank]
    rfl
  · intro c
    have hbound : ∀ x ∈ dfa.states, x < dfa.states.length := by
      intro x hx
      have hx2 : x ∈ List.range dfa.states.length := by rw [← hshape]; exact hx
      exact List.mem_range.mp hx2
    constructor
    · exact decider_lookup_not_mem (fun h => by have := hbound _ h; omega) c
    · exact decider_lookup_not_mem (fun h => by have := hbound _ h; omega) c

/-- C4 witness: the totality theorem applied to the concrete DFA `exDfa`
(and sampled at state 0 and symbol `b`, which `exDfa` lacks). -/
theorem decider_table_total_witness :
    (exDfa.states = List.range exDfa.states.length
      ∧ (∀ c ∈ exDfa.alphabet, c ∈ INPUT_ALPHABET))
    ∧ ((∀ s ∈ exDfa.states, ∀ c : Sym,
      ∃ r, dict_get (dfa_to_tm_decider exDfa).transitions (s, c) = some r)
    ∧ (∀ s ∈ exDfa.states, ∀ c ∈ INPUT_ALPHABET,
        (dict_get exDfa.transitions (s, c) = none ∨ c ∉ exDfa.alphabet) →
        dict_get (dfa_to_tm_decider exDfa).transitions (s, c)
          = some (exDfa.states.length + 1, c, Move.R))
    ∧ (∀ s ∈ exDfa.states,
        dict_get (dfa_to_tm_decider exDfa).transitions (s, Sym.blank)
          = some ((if s ∈ exDfa.accept_states then exDfa.states.length
              else exDfa.states.length + 1), Sym.blank, Move.R))
    ∧ (∀ c : Sym,
        dict_get (dfa_to_tm_decider exDfa).transitions (exDfa.states.length, c) = none
        ∧ dict_get (dfa_to_tm_decider exDfa).transitions (exDfa.states.length + 1, c) = none)) :=
  ⟨⟨by decide, by decide⟩, decider_table_total exDfa (by decide) (by decide)⟩

/-- C6 counterexample: for the concrete DFA `exDfa` with two states, the
produced TM's `num_states` is 4 (`len(tm_states)` counts the two sinks as
well), not the count 2 of non-sink DFA-inherited states the claim
asserts. -/
theorem tm_num_states_counterexample :
    (dfa_to_tm_decider exDfa).num_states = 4 ∧ exDfa.states.length = 2 ∧
    (dfa_to_tm_decider exDfa).num_states ≠ exDfa.states.length := by
  refine ⟨by decide, by decide, by decide⟩

/-- C6 amended: `num_states` of the produced TM equals the total state
count `N + 2` — the `N` DFA-inherited states plus the accept sink at
index `N` and the reject sink at index `N+1`, which are appended beyond
the DFA-inherited indices but counted by `num_states`. -/
theorem tm_num_states_amended (dfa : DFA') :
    (dfa_to_tm_decider dfa).num_states = dfa.states.length + 2
    ∧ (dfa_to_tm_decider dfa).accept_states = [dfa.states.length]
    ∧ (dfa_to_tm_decider dfa).reject_states = [dfa.states.length + 1] :=
  ⟨by rw [show (dfa_to_tm_decider dfa).num_states
      = (List.range (dfa.states.length + 2)).length from rfl, List.length_range],
    rfl, rfl⟩

/-- C9: for every TM and input state of the simulation loop, if the pair
(current state, symbol under the head) is absent from the TM's transition
dictionary — and the state is not a sink and the budget not exhausted, so
the lookup is actually reached — the simulator returns the reject verdict
`0` together with the configurations collected so far (including the one
recorded at the failing step), rather than raising an error. -/
theorem missing_transition_rejects (tm : TM) (max_steps : Option Nat) (fuel : Nat)
    (st : SimSt)
    (ha : st.state ∉ tm.accept_states) (hr : st.state ∉ tm.reject_states)
    (hb : budget_exhausted max_steps st.steps = false)
    (hmiss : dict_get tm.transitions (st.state, read_symbol tm.blank st.tape st.head) = none) :
    sim_run tm max_steps (fuel + 1) st
      = some (0, st.configurations ++ [⟨st.state, st.tape, st.head⟩]) := by
  rw [sim_run_succ, sim_loop_body_not_final tm max_steps st ha hr hb, hmiss]

/-- C9 witness: a machine with an empty transition dictionary rejects on
the empty input at the very first step, returning the single collected
configuration. -/
theorem missing_transition_rejects_witness :
    ((0 ∉ tmMissing.accept_states) ∧ (0 ∉ tmMissing.reject_states)
      ∧ budget_exhausted none 0 = false
      ∧ dict_get tmMissing.transitions
          (0, read_symbol tmMissing.blank [Sym.blank] 0) = none)
    ∧ sim_run tmMissing none 1 (sim_init tmMissing [])
      = some (0, [⟨0, [Sym.blank], 0⟩]) :=
  ⟨⟨by decide, by decide, rfl, rfl⟩,
    missing_transition_rejects tmMissing none 0 (sim_init tmMissing [])
      (by decide) (by decide) rfl rfl⟩

theorem get?_some_lt {α : Type} {l : List α} {n : Nat} {a : α}
    (h : l.get? n = some a) : n < l.length := by
  by_contra hh
  rw [List.get?_eq_none.mpr (by omega)] at h
  cases h

/-- Every subset the construction can store is inside the finite state
universe. -/
theorem detStep_subset_univ (nfa : NFA') (S : Finset Nat) (c : Sym) :
    detStep nfa S c ⊆ detUniv nfa := by
  unfold detStep
  by_cases h : (move_nfa nfa S c).Nonempty
  · rw [if_pos h]
    intro x hx
    rcases Finset.mem_union.mp (epsilon_closure_subset_union nfa _ hx) with hx | hx
    · exact Finset.mem_insert_of_mem (move_nfa_subset_allTargets nfa S c hx)
    · exact Finset.mem_insert_of_mem hx
  · rw [if_neg h]
    intro x hx
    cases Finset.not_mem_empty x hx

theorem detStep_empty (nfa : NFA') (c : Sym) : detStep nfa ∅ c = ∅ := by
  unfold detStep
  rw [if_neg]
  intro ⟨x, hx⟩
  rcases mem_move_nfa.mp hx with ⟨s, hs, _⟩
  exact Finset.not_mem_empty s hs

theorem get?_append_lt {α : Type} :
    ∀ (l l' : List α) (n : Nat), n < l.length → (l ++ l').get? n = l.get? n := by
  intro l
  induction l with
  | nil => intro l' n h; cases h
  | cons a l ih =>
    intro l' n h
    cases n with
    | zero => rfl
    | succ n => exact ih l' n (by simpa using h)

theorem get?_concat_len {α : Type} :
    ∀ (l : List α) (a : α), (l ++ [a]).get? l.length = some a := by
  intro l
  induction l with
  | nil => intro a; rfl
  | cons b l ih => intro a; exact ih a

theorem processSymbol_hit (nfa : NFA') (subset : Finset Nat) (index : Nat)
    (st : DetSt) (c : Sym) (k : Nat)
    (h : dict_get st.table (detStep nfa subset c) = some k) :
    processSymbol nfa subset index st c
      = { st with dtrans := ((index, c), k) :: st.dtrans } := by
  simp only [processSymbol]
  rw [h]

theorem processSymbol_miss (nfa : NFA') (subset : Finset Nat) (index : Nat)
    (st : DetSt) (c : Sym)
    (h : dict_get st.table (detStep nfa subset c) = none) :
    processSymbol nfa subset index st c
      = { st with
          table := (detStep nfa subset c, st.subsets.length) :: st.table,
          subsets := st.subsets ++ [detStep nfa subset c],
          dtrans := ((index, c), st.subsets.length) :: st.dtrans } := by
  simp only [processSymbol]
  rw [h]

theorem detCore_processSymbol (nfa : NFA') (subset : Finset Nat) (index : Nat)
    (st : DetSt) (c : Sym) (hc : DetCore nfa st) :
    DetCore nfa (processSymbol nfa subset index st c)
    ∧ (∃ ext, (processSymbol nfa subset index st c).subsets = st.subsets ++ ext)
    ∧ (processSymbol nfa subset index st c).daccept = st.daccept
    ∧ (∀ key : Nat × Sym, key ≠ (index, c) →
        dict_get (processSymbol nfa subset index st c).dtrans key = dict_get st.dtrans key)
    ∧ (∃ k, dict_get (processSymbol nfa subset index st c).dtrans (index, c) = some k
        ∧ (processSymbol nfa subset index st c).subsets.get? k
            = some (detStep nfa subset c)) := by
  obtain ⟨hnodup, hbounded, hrep⟩ := hc
  cases h : dict_get st.table (detStep nfa subset c) with
  | some k =>
    have hsubs : (processSymbol nfa subset index st c).subsets = st.subsets := by
      rw [processSymbol_hit nfa subset index st c k h]
    have htab : (processSymbol nfa subset index st c).table = st.table := by
      rw [processSymbol_hit nfa subset index st c k h]
    have hdtr : (processSymbol nfa subset index st c).dtrans
        = ((index, c), k) :: st.dtrans := by
      rw [processSymbol_hit nfa subset index st c k h]
    have hdac : (processSymbol nfa subset index st c).daccept = st.daccept := by
      rw [processSymbol_hit nfa subset index st c k h]
    refine ⟨⟨hsubs ▸ hnodup, ?_, ?_⟩, ⟨[], by rw [hsubs, List.append_nil]⟩, hdac, ?_, ?_⟩
    · rw [hsubs]; exact hbounded
    · intro S i; rw [hsubs, htab]; exact hrep S i
    · intro key hkey
      rw [hdtr, dict_get_cons, if_neg hkey]
    · refine ⟨k, by rw [hdtr, dict_get_cons, if_pos rfl], ?_⟩
      rw [hsubs]
      exact (hrep _ k).mp h
  | none =>
    have hsubs : (processSymbol nfa subset index st c).subsets
        = st.subsets ++ [detStep nfa subset c] := by
      rw [processSymbol_miss nfa subset index st c h]
    have htab : (processSymbol nfa subset index st c).table
        = (detStep nfa subset c, st.subsets.length) :: st.table := by
      rw [processSymbol_miss nfa subset index st c h]
    have hdtr : (processSymbol nfa subset index st c).dtrans
        = ((index, c), st.subsets.length) :: st.dtrans := by
      rw [processSymbol_miss nfa subset index st c h]
    have hdac : (processSymbol nfa subset index st c).daccept = st.daccept := by
      rw [processSymbol_miss nfa subset index st c h]
    have hnot : detStep nfa subset c ∉ st.subsets := by
      intro hmem
      obtain ⟨i, hi⟩ := List.mem_iff_get?.mp hmem
      rw [(hrep _ i).mpr hi] at h
      cases h
    refine ⟨⟨?_, ?_, ?_⟩, ⟨[detStep nfa subset c], hsubs⟩, hdac, ?_, ?_⟩
    · rw [hsubs, List.nodup_append]
      refine ⟨hnodup, List.nodup_singleton _, ?_⟩
      intro a ha hb
      rw [List.mem_singleton] at hb
      subst hb
      exact hnot ha
    · rw [hsubs]
      intro S hS
      rcases List.mem_append.mp hS with hS | hS
      · exact hbounded S hS
      · rw [List.mem_singleton] at hS
        subst hS
        exact detStep_subset_univ nfa subset c
    · intro S i
      rw [hsubs, htab]
      by_cases hS : S = detStep nfa subset c
      · subst hS
        rw [dict_get_cons, if_pos rfl]
        constructor
        · intro hsome
          have hieq : i = st.subsets.length := by
            injection hsome with h2
            omega
          subst hieq
          exact get?_concat_len _ _
        · intro hget
          by_cases hlt : i < st.subsets.length
          · rw [get?_append_lt _ _ _ hlt] at hget
            exact absurd (List.get?_mem hget) hnot
          · have hlen := get?_some_lt hget
            rw [List.length_append, List.length_singleton] at hlen
            have hieq : i = st.subsets.length := by omega
            rw [hieq]
      · rw [dict_get_cons, if_neg hS, hrep S i]
        constructor
        · intro hget
          rw [get?_append_lt _ _ _ (get?_some_lt hget)]
          exact hget
        · intro hget
          by_cases hlt : i < st.subsets.length
          · rw [get?_append_lt _ _ _ hlt] at hget
            exact hget
          · have hlen := get?_some_lt hget
            rw [List.length_append, List.length_singleton] at hlen
            have hieq : i = st.subsets.length := by omega
            subst hieq
            rw [get?_concat_len] at hget
            injection hget with h2
            exact absurd h2.symm hS
    · intro key hkey
      rw [hdtr, dict_get_cons, if_neg hkey]
    · refine ⟨st.subsets.length, by rw [hdtr, dict_get_cons, if_pos rfl], ?_⟩
      rw [hsubs]
      exact get?_concat_len _ _

theorem detCore_processFold (nfa : NFA') (subset : Finset Nat) (index : Nat) :
    ∀ (cs : List Sym) (st : DetSt), DetCore nfa st →
      DetCore nfa (cs.foldl (processSymbol nfa subset index) st)
      ∧ (∃ ext, (cs.foldl (processSymbol nfa subset index) st).subsets = st.subsets ++ ext)
      ∧ (cs.foldl (processSymbol nfa subset index) st).daccept = st.daccept
      ∧ (∀ key : Nat × Sym, key.1 ≠ index →
          dict_get (cs.foldl (processSymbol nfa subset index) st).dtrans key
            = dict_get st.dtrans key)
      ∧ (∀ c : Sym, (DtransOk nfa subset index st c ∨ c ∈ cs) →
          DtransOk nfa subset index (cs.foldl (processSymbol nfa subset index) st) c) := by
  intro cs
  induction cs with
  | nil =>
    intro st hc
    refine ⟨hc, ⟨[], (List.append_nil _).symm⟩, rfl, fun _ _ => rfl, ?_⟩
    intro c h
    rcases h with h | h
    · exact h
    · cases h
  | cons c0 cs ih =>
    intro st hc
    obtain ⟨hc1, ⟨ext1, hext1⟩, hdac1, hkeys1, hQ0⟩ :=
      detCore_processSymbol nfa subset index st c0 hc
    obtain ⟨hc2, ⟨ext2, hext2⟩, hdac2, hkeys2, hQ2⟩ :=
      ih (processSymbol nfa subset index st c0) hc1
    rw [List.foldl_cons]
    refine ⟨hc2, ⟨ext1 ++ ext2, by rw [hext2, hext1, List.append_assoc]⟩,
      hdac2.trans hdac1, ?_, ?_⟩
    · intro key hkey
      rw [hkeys2 key hkey, hkeys1 key (fun heq => hkey (by rw [heq]))]
    · intro c h
      rcases h with h | h
      · refine hQ2 c (Or.inl ?_)
        by_cases hcc : c = c0
        · subst hcc
          exact hQ0
        · obtain ⟨k, hk, hget⟩ := h
          refine ⟨k, ?_, ?_⟩
          · rw [hkeys1 (index, c) (fun heq => hcc (congrArg Prod.snd heq)), hk]
          · rw [hext1]
            rw [get?_append_lt _ _ _ (get?_some_lt hget)]
            exact hget
      · rcases List.mem_cons.mp h with h | h
        · subst h
          exact hQ2 c (Or.inl hQ0)
        · exact hQ2 c (Or.inr h)

theorem markAccept_subsets (nfa : NFA') (subset : Finset Nat) (i : Nat) (st : DetSt) :
    (markAccept nfa subset i st).subsets = st.subsets := by
  unfold markAccept
  split <;> rfl

theorem markAccept_table (nfa : NFA') (subset : Finset Nat) (i : Nat) (st : DetSt) :
    (markAccept nfa subset i st).table = st.table := by
  unfold markAccept
  split <;> rfl

theorem markAccept_dtrans (nfa : NFA') (subset : Finset Nat) (i : Nat) (st : DetSt) :
    (markAccept nfa subset i st).dtrans = st.dtrans := by
  unfold markAccept
  split <;> rfl

theorem markAccept_daccept_pos (nfa : NFA') (subset : Finset Nat) (i : Nat) (st : DetSt)
    (h : ∃ s ∈ subset, s ∈ nfa.accept_states) :
    (markAccept nfa subset i st).daccept = insert i st.daccept := by
  unfold markAccept
  rw [if_pos h]

theorem markAccept_daccept_neg (nfa : NFA') (subset : Finset Nat) (i : Nat) (st : DetSt)
    (h : ¬ ∃ s ∈ subset, s ∈ nfa.accept_states) :
    (markAccept nfa subset i st).daccept = st.daccept := by
  unfold markAccept
  rw [if_neg h]

theorem detInv_step (nfa : NFA') (index : Nat) (st : DetSt)
    (inv : DetInv nfa index st) (h : index < st.subsets.length) :
    DetInv nfa (index + 1)
      (markAccept nfa (st.subsets.get ⟨index, h⟩) index
        (nfa.alphabet.foldl (processSymbol nfa (st.subsets.get ⟨index, h⟩) index) st)) := by
  obtain ⟨hc2, ⟨ext, hext⟩, hdac, hkeys, hQ⟩ :=
    detCore_processFold nfa (st.subsets.get ⟨index, h⟩) index nfa.alphabet st inv.core
  have hpres : ∀ j, j < st.subsets.length →
      (nfa.alphabet.foldl (processSymbol nfa (st.subsets.get ⟨index, h⟩) index) st).subsets.get? j
        = st.subsets.get? j := by
    intro j hj
    rw [hext]
    exact get?_append_lt _ _ _ hj
  have hms := markAccept_subsets nfa (st.subsets.get ⟨index, h⟩) index
    (nfa.alphabet.foldl (processSymbol nfa (st.subsets.get ⟨index, h⟩) index) st)
  have hmt := markAccept_table nfa (st.subsets.get ⟨index, h⟩) index
    (nfa.alphabet.foldl (processSymbol nfa (st.subsets.get ⟨index, h⟩) index) st)
  have hmd := markAccept_dtrans nfa (st.subsets.get ⟨index, h⟩) index
    (nfa.alphabet.foldl (processSymbol nfa (st.subsets.get ⟨index, h⟩) index) st)
  have hidx : st.subsets.get? index = some (st.subsets.get ⟨index, h⟩) :=
    List.get?_eq_get h
  constructor
  case core =>
    obtain ⟨ha, hb, hr⟩ := hc2
    refine ⟨hms ▸ ha, ?_, ?_⟩
    · rw [hms]; exact hb
    · intro S i; rw [hms, hmt]; exact hr S i
  case idx_le =>
    rw [hms, hext, List.length_append]
    omega
  case head0 =>
    rw [hms, hpres 0 (by omega)]
    exact inv.head0
  case processed =>
    intro j Sj hget hj c hc
    rw [hms] at hget
    rw [hms, hmd]
    by_cases hj' : j < index
    · have hold : st.subsets.get? j = some Sj := by
        rw [← hpres j (by omega)]
        exact hget
      obtain ⟨k, hk, hkget⟩ := inv.processed j Sj hold hj' c hc
      refine ⟨k, ?_, ?_⟩
      · rw [hkeys (j, c) (by simp; omega), hk]
      · rw [hpres k (get?_some_lt hkget)]
        exact hkget
    · have hje : j = index := by omega
      subst hje
      have hSj : Sj = st.subsets.get ⟨j, h⟩ := by
        rw [hpres j h, hidx] at hget
        injection hget with h2
        exact h2.symm
      subst hSj
      exact hQ c (Or.inr hc)
  case accepted =>
    intro j Sj hget hj
    rw [hms] at hget
    by_cases hcond : ∃ s ∈ st.subsets.get ⟨index, h⟩, s ∈ nfa.accept_states
    · rw [markAccept_daccept_pos _ _ _ _ hcond, hdac]
      by_cases hj' : j < index
      · have hold : st.subsets.get? j = some Sj := by
          rw [← hpres j (by omega)]
          exact hget
        rw [Finset.mem_insert]
        constructor
        · intro hin
          rcases hin with hin | hin
          · omega
          · exact (inv.accepted j Sj hold hj').mp hin
        · intro hin
          exact Or.inr ((inv.accepted j Sj hold hj').mpr hin)
      · have hje : j = index := by omega
        subst hje
        have hSj : Sj = st.subsets.get ⟨j, h⟩ := by
          rw [hpres j h, hidx] at hget
          injection hget with h2
          exact h2.symm
        subst hSj
        constructor
        · intro _
          exact hcond
        · intro _
          exact Finset.mem_insert_self _ _
    · rw [markAccept_daccept_neg _ _ _ _ hcond, hdac]
      by_cases hj' : j < index
      · have hold : st.subsets.get? j = some Sj := by
          rw [← hpres j (by omega)]
          exact hget
        exact inv.accepted j Sj hold hj'
      · have hje : j = index := by omega
        subst hje
        have hSj : Sj = st.subsets.get ⟨j, h⟩ := by
          rw [hpres j h, hidx] at hget
          injection hget with h2
          exact h2.symm
        subst hSj
        constructor
        · intro hin
          have := inv.daccept_lt j hin
          omega
        · intro hin
          exact absurd hin hcond
  case daccept_lt =>
    by_cases hcond : ∃ s ∈ st.subsets.get ⟨index, h⟩, s ∈ nfa.accept_states
    · rw [markAccept_daccept_pos _ _ _ _ hcond, hdac]
      intro j hj
      rcases Finset.mem_insert.mp hj with hj | hj
      · omega
      · have := inv.daccept_lt j hj
        omega
    · rw [markAccept_daccept_neg _ _ _ _ hcond, hdac]
      intro j hj
      have := inv.daccept_lt j hj
      omega

theorem subsets_length_le (nfa : NFA') (st : DetSt) (hc : DetCore nfa st) :
    st.subsets.length ≤ detFuel nfa := by
  obtain ⟨hnodup, hbounded, _⟩ := hc
  unfold detFuel
  calc st.subsets.length = st.subsets.toFinset.card :=
        (List.toFinset_card_of_nodup hnodup).symm
    _ ≤ (detUniv nfa).powerset.card := by
        refine Finset.card_le_card ?_
        intro S hS
        exact Finset.mem_powerset.mpr (hbounded S (List.mem_toFinset.mp hS))
    _ = 2 ^ (detUniv nfa).card := Finset.card_powerset _

theorem det_loop_inv (nfa : NFA') :
    ∀ (fuel index : Nat) (st : DetSt), DetInv nfa index st →
      detFuel nfa ≤ fuel + index →
      DetInv nfa (det_loop nfa fuel index st).subsets.length (det_loop nfa fuel index st) := by
  intro fuel
  induction fuel with
  | zero =>
    intro index st inv hf
    rw [det_loop]
    have hlen : st.subsets.length = index :=
      le_antisymm ((subsets_length_le nfa st inv.core).trans (by omega)) inv.idx_le
    rw [hlen]
    exact inv
  | succ fuel ih =>
    intro index st inv hf
    simp only [det_loop]
    by_cases h : index < st.subsets.length
    · rw [dif_pos h]
      exact ih (index + 1) _ (detInv_step nfa index st inv h) (by omega)
    · rw [dif_neg h]
      have hlen : st.subsets.length = index :=
        le_antisymm (by omega) inv.idx_le
      rw [hlen]
      exact inv

theorem detInit_inv (nfa : NFA') : DetInv nfa 0 (detInit nfa) := by
  constructor
  case core =>
    refine ⟨List.nodup_singleton _, ?_, ?_⟩
    · intro S hS
      have hS2 : S = epsilon_closure nfa {nfa.start_state} := by
        rw [show (detInit nfa).subsets
          = [epsilon_closure nfa {nfa.start_state}] from rfl] at hS
        exact List.mem_singleton.mp hS
      subst hS2
      intro x hx
      rcases Finset.mem_union.mp (epsilon_closure_subset_union nfa _ hx) with hx | hx
      · rw [Finset.mem_singleton] at hx
        subst hx
        exact Finset.mem_insert_self _ _
      · exact Finset.mem_insert_of_mem hx
    · intro S i
      by_cases hS : S = epsilon_closure nfa {nfa.start_state}
      · subst hS
        rw [show (detInit nfa).table
          = [(epsilon_closure nfa {nfa.start_state}, 0)] from rfl, dict_get_cons, if_pos rfl]
        cases i with
        | zero => simp [detInit]
        | succ i =>
          constructor
          · intro hcon
            injection hcon with h2
            omega
          · intro hcon
            rw [show (detInit nfa).subsets.get? (i + 1) = none from rfl] at hcon
            cases hcon
      · rw [show (detInit nfa).table
          = [(epsilon_closure nfa {nfa.start_state}, 0)] from rfl, dict_get_cons, if_neg hS,
          dict_get_nil]
        cases i with
        | zero =>
          constructor
          · intro hcon; cases hcon
          · intro hcon
            rw [show (detInit nfa).subsets.get? 0
              = some (epsilon_closure nfa {nfa.start_state}) from rfl] at hcon
            injection hcon with h2
            exact absurd h2.symm hS
        | succ i =>
          constructor
          · intro hcon; cases hcon
          · intro hcon
            rw [show (detInit nfa).subsets.get? (i + 1) = none from rfl] at hcon
            cases hcon
  case idx_le => omega
  case head0 => rfl
  case processed =>
    intro j Sj _ hj
    omega
  case accepted =>
    intro j Sj _ hj
    omega
  case daccept_lt =>
    intro j hj
    exact absurd hj (Finset.not_mem_empty j)

/-- The invariant holds of the final, fully processed loop state: every
discovered index has a complete transition row and a correct accept
mark. -/
theorem detFinal_inv (nfa : NFA') :
    DetInv nfa (detFinal nfa).subsets.length (detFinal nfa) :=
  det_loop_inv nfa (detFuel nfa) 0 (detInit nfa) (detInit_inv nfa) (by omega)

/-- C5: for every NFA, the DFA produced by `nfa_to_dfa` has a transition
dictionary that is total over its own states and alphabet: for every
state index and alphabet symbol the lookup returns exactly one target,
and the target is again a state of the DFA. -/
theorem dfa_table_total (nfa : NFA') :
    ∀ i ∈ (nfa_to_dfa nfa).states, ∀ c ∈ (nfa_to_dfa nfa).alphabet,
      ∃ t, dict_get (nfa_to_dfa nfa).transitions (i, c) = some t
        ∧ t ∈ (nfa_to_dfa nfa).states := by
  have inv := detFinal_inv nfa
  intro i hi c hc
  have hi2 : i < (detFinal nfa).subsets.length := by
    rw [show (nfa_to_dfa nfa).states
      = List.range (detFinal nfa).subsets.length from rfl] at hi
    exact List.mem_range.mp hi
  obtain ⟨Si, hSi⟩ : ∃ Si, (detFinal nfa).subsets.get? i = some Si :=
    ⟨_, List.get?_eq_get hi2⟩
  have hc2 : c ∈ nfa.alphabet := hc
  obtain ⟨k, hk, hkget⟩ := inv.processed i Si hSi hi2 c hc2
  refine ⟨k, hk, ?_⟩
  rw [show (nfa_to_dfa nfa).states
    = List.range (detFinal nfa).subsets.length from rfl]
  exact List.mem_range.mpr (get?_some_lt hkget)

/-- C5 witness: totality of the DFA transition dictionary instantiated on
the source's own example NFA, at state 0 and symbol `a`. -/
theorem dfa_table_total_witness :
    (0 ∈ (nfa_to_dfa build_example_nfa).states
      ∧ Sym.a ∈ (nfa_to_dfa build_example_nfa).alphabet)
    ∧ ∃ t, dict_get (nfa_to_dfa build_example_nfa).transitions (0, Sym.a) = some t
        ∧ t ∈ (nfa_to_dfa build_example_nfa).states :=
  ⟨⟨by decide, by decide⟩,
    dfa_table_total build_example_nfa 0 (by decide) Sym.a (by decide)⟩

/-- C7 counterexample: on an NFA whose start state `5` is not in its
state set, `nfa_to_dfa` does not fail with an input-validation error —
it silently returns an ordinary DFA (states `[0,1]`, start 0, with a
transition dictionary), contradicting the claim that such malformed
input is reported as an error rather than producing a result. -/
theorem determinize_no_validation_counterexample :
    badNfa.start_state ∉ badNfa.states
    ∧ (nfa_to_dfa badNfa).states = [0, 1]
    ∧ (nfa_to_dfa badNfa).start_state = 0
    ∧ dict_get (nfa_to_dfa badNfa).transitions (0, Sym.a) = some 1 := by decide

/-- C7 amended: `nfa_to_dfa` performs no input validation and never
fails; even when the NFA's start state is not a member of its state set,
it silently produces a well-shaped DFA whose subset number 0 is the
epsilon-closure of the missing start state. -/
theorem determinize_no_validation (nfa : NFA')
    (h : nfa.start_state ∉ nfa.states) :
    (nfa_to_dfa nfa).start_state = 0
    ∧ (nfa_to_dfa nfa).states = List.range (detFinal nfa).subsets.length
    ∧ (detFinal nfa).subsets.get? 0 = some (epsilon_closure nfa {nfa.start_state}) :=
  ⟨rfl, rfl, (detFinal_inv nfa).head0⟩

/-- C7 witness: the amended statement applied to the concrete malformed
NFA `badNfa`. -/
theorem determinize_no_validation_witness :
    badNfa.start_state ∉ badNfa.states
    ∧ ((nfa_to_dfa badNfa).start_state = 0
      ∧ (nfa_to_dfa badNfa).states = List.range (detFinal badNfa).subsets.length
      ∧ (detFinal badNfa).subsets.get? 0
          = some (epsilon_closure badNfa {badNfa.start_state})) :=
  ⟨by decide, determinize_no_validation badNfa (by decide)⟩

/-- C8: in every DFA produced by `nfa_to_dfa`, if the empty subset is
discovered at some index `k` then that index is unique, it is not an
accept state, and its transition on every alphabet symbol is a self-loop
back to `k`. -/
theorem empty_subset_dead_state (nfa : NFA') (k : Nat)
    (hk : (detFinal nfa).subsets.get? k = some ∅) :
    (∀ k', (detFinal nfa).subsets.get? k' = some ∅ → k' = k)
    ∧ k ∉ (nfa_to_dfa nfa).accept_states
    ∧ ∀ c ∈ (nfa_to_dfa nfa).alphabet,
        dict_get (nfa_to_dfa nfa).transitions (k, c) = some k := by
  have inv := detFinal_inv nfa
  obtain ⟨hnodup, _, _⟩ := inv.core
  have huniq : ∀ k', (detFinal nfa).subsets.get? k' = some ∅ → k' = k := by
    intro k' hk'
    exact List.get?_inj (get?_some_lt hk') hnodup (hk'.trans hk.symm)
  refine ⟨huniq, ?_, ?_⟩
  · intro hmem
    have hd : k ∈ (detFinal nfa).daccept := by
      rw [show (nfa_to_dfa nfa).accept_states
        = finsetList (detFinal nfa).daccept from rfl] at hmem
      exact mem_finsetList.mp hmem
    obtain ⟨s, hs, _⟩ := (inv.accepted k ∅ hk (get?_some_lt hk)).mp hd
    exact Finset.not_mem_empty s hs
  · intro c hc
    have hc2 : c ∈ nfa.alphabet := hc
    obtain ⟨k2, hk2, hk2get⟩ := inv.processed k ∅ hk (get?_some_lt hk) c hc2
    rw [detStep_empty] at hk2get
    have : k2 = k := huniq k2 hk2get
    subst this
    exact hk2

/-- C8 witness: determinizing `deadNfa` discovers the empty subset at
index 1; its dead-state properties hold there. -/
theorem empty_subset_dead_state_witness :
    ((detFinal deadNfa).subsets.get? 1 = some ∅)
    ∧ ((∀ k', (detFinal deadNfa).subsets.get? k' = some ∅ → k' = 1)
      ∧ 1 ∉ (nfa_to_dfa deadNfa).accept_states
      ∧ ∀ c ∈ (nfa_to_dfa deadNfa).alphabet,
          dict_get (nfa_to_dfa deadNfa).transitions (1, c) = some 1) :=
  ⟨by decide, empty_subset_dead_state deadNfa 1 (by decide)⟩

theorem reads_compose {nfa : NFA'} {s x u : Nat} {w v : List Sym}
    (h1 : NfaReads nfa s w x) (h2 : NfaReads nfa x v u) :
    NfaReads nfa s (w ++ v) u := by
  induction h1 with
  | refl s => exact h2
  | eps s t x0 w0 hedge _ ih => exact NfaReads.eps _ _ _ _ hedge (ih h2)
  | step s t x0 c w0 hedge _ ih => exact NfaReads.step _ _ _ _ _ hedge (ih h2)

theorem reads_of_epsReaches {nfa : NFA'} {s t : Nat} (h : epsReaches nfa s t) :
    NfaReads nfa s [] t := by
  induction h with
  | refl => exact NfaReads.refl _
  | tail hp hedge ih =>
    exact reads_compose ih (NfaReads.eps _ _ _ _ hedge (NfaReads.refl _))

theorem reads_nil_aux {nfa : NFA'} {s t : Nat} {z : List Sym}
    (h : NfaReads nfa s z t) : z = [] → epsReaches nfa s t := by
  induction h with
  | refl s => intro _; exact Relation.ReflTransGen.refl
  | eps s t' u w hedge _ ih =>
    intro hz
    exact Relation.ReflTransGen.head hedge (ih hz)
  | step s t' u c w hedge _ ih =>
    intro hz
    exact absurd hz (List.cons_ne_nil c w)

theorem reads_nil_iff {nfa : NFA'} {s t : Nat} :
    NfaReads nfa s [] t ↔ epsReaches nfa s t :=
  ⟨fun h => reads_nil_aux h rfl, reads_of_epsReaches⟩

theorem reads_append_split {nfa : NFA'} {s u : Nat} {z : List Sym}
    (h : NfaReads nfa s z u) :
    ∀ w v, z = w ++ v → ∃ x, NfaReads nfa s w x ∧ NfaReads nfa x v u := by
  induction h with
  | refl s =>
    intro w v hz
    obtain ⟨hw, hv⟩ := List.append_eq_nil.mp hz.symm
    subst hw
    subst hv
    exact ⟨s, NfaReads.refl s, NfaReads.refl s⟩
  | eps s t u0 w0 hedge _ ih =>
    intro w v hz
    obtain ⟨x, h1, h2⟩ := ih w v hz
    exact ⟨x, NfaReads.eps _ _ _ _ hedge h1, h2⟩
  | step s t u0 c w0 hedge hrest ih =>
    intro w v hz
    cases w with
    | nil =>
      rw [List.nil_append] at hz
      refine ⟨s, NfaReads.refl s, ?_⟩
      rw [← hz]
      exact NfaReads.step _ _ _ _ _ hedge hrest
    | cons c1 w1 =>
      rw [List.cons_append] at hz
      injection hz with hc hw
      subst hc
      obtain ⟨x, h1, h2⟩ := ih w1 v hw
      exact ⟨x, NfaReads.step _ _ _ _ _ hedge h1, h2⟩

theorem reads_single_aux {nfa : NFA'} {x u : Nat} {z : List Sym}
    (h : NfaReads nfa x z u) :
    ∀ c : Sym, z = [c] →
      ∃ y m, epsReaches nfa x y ∧ m ∈ symSucc nfa y c ∧ epsReaches nfa m u := by
  induction h with
  | refl s =>
    intro c hz
    exact absurd hz.symm (List.cons_ne_nil c [])
  | eps s t u0 w0 hedge _ ih =>
    intro c hz
    obtain ⟨y, m, h1, h2, h3⟩ := ih c hz
    exact ⟨y, m, Relation.ReflTransGen.head hedge h1, h2, h3⟩
  | step s t u0 c0 w0 hedge hrest ih =>
    intro c hz
    injection hz with hc hw
    subst hc
    subst hw
    exact ⟨s, t, Relation.ReflTransGen.refl, hedge, reads_nil_aux hrest rfl⟩

theorem mem_detStep {nfa : NFA'} {S : Finset Nat} {c : Sym} {x : Nat} :
    x ∈ detStep nfa S c ↔ ∃ s ∈ S, ∃ m ∈ symSucc nfa s c, epsReaches nfa m x := by
  unfold detStep
  by_cases h : (move_nfa nfa S c).Nonempty
  · rw [if_pos h, mem_epsilon_closure]
    constructor
    · rintro ⟨m, hm, hreach⟩
      obtain ⟨s, hs, hms⟩ := mem_move_nfa.mp hm
      exact ⟨s, hs, m, hms, hreach⟩
    · rintro ⟨s, hs, m, hms, hreach⟩
      exact ⟨m, mem_move_nfa.mpr ⟨s, hs, hms⟩, hreach⟩
  · rw [if_neg h]
    simp only [Finset.not_mem_empty, false_iff]
    rintro ⟨s, hs, m, hms, _⟩
    exact h ⟨m, mem_move_nfa.mpr ⟨s, hs, hms⟩⟩

theorem epsClosed_reach {nfa : NFA'} {S : Finset Nat} (hS : EpsClosed nfa S)
    {x y : Nat} (hx : x ∈ S) (h : epsReaches nfa x y) : y ∈ S := by
  induction h with
  | refl => exact hx
  | tail _ hedge ih => exact hS _ ih _ hedge

theorem detStep_epsClosed (nfa : NFA') (S : Finset Nat) (c : Sym) :
    EpsClosed nfa (detStep nfa S c) := by
  unfold detStep
  by_cases h : (move_nfa nfa S c).Nonempty
  · rw [if_pos h]
    exact epsilon_closure_closed nfa _
  · rw [if_neg h]
    intro x hx
    exact absurd hx (Finset.not_mem_empty x)

theorem afterSet_concat (nfa : NFA') (w : List Sym) (c : Sym) :
    afterSet nfa (w ++ [c]) = detStep nfa (afterSet nfa w) c := by
  unfold afterSet
  rw [List.foldl_append]
  rfl

theorem afterSet_epsClosed (nfa : NFA') (w : List Sym) :
    EpsClosed nfa (afterSet nfa w) := by
  rcases List.eq_nil_or_concat w with rfl | ⟨v, c, rfl⟩
  · exact epsilon_closure_closed nfa _
  · rw [List.concat_eq_append, afterSet_concat]
    exact detStep_epsClosed nfa _ c

theorem mem_afterSet {nfa : NFA'} :
    ∀ {w : List Sym} {t : Nat},
      t ∈ afterSet nfa w ↔ NfaReads nfa nfa.start_state w t := by
  intro w
  induction w using List.reverseRecOn with
  | nil =>
    intro t
    rw [show afterSet nfa [] = epsilon_closure nfa {nfa.start_state} from rfl,
      mem_epsilon_closure]
    constructor
    · rintro ⟨s, hs, hreach⟩
      rw [Finset.mem_singleton] at hs
      subst hs
      exact reads_of_epsReaches hreach
    · intro h
      exact ⟨nfa.start_state, Finset.mem_singleton_self _, reads_nil_iff.mp h⟩
  | append_singleton w c ih =>
    intro t
    rw [afterSet_concat, mem_detStep]
    constructor
    · rintro ⟨s, hs, m, hms, hreach⟩
      exact reads_compose (ih.mp hs)
        (NfaReads.step _ _ _ _ _ hms (reads_of_epsReaches hreach))
    · intro h
      obtain ⟨x, h1, h2⟩ := reads_append_split h w [c] rfl
      obtain ⟨y, m, hxy, hm, hmt⟩ := reads_single_aux h2 c rfl
      refine ⟨y, ?_, m, hm, hmt⟩
      exact epsClosed_reach (afterSet_epsClosed nfa w) (ih.mpr h1) hxy

theorem dfa_run_detFinal (nfa : NFA') :
    ∀ (w : List Sym), (∀ c ∈ w, c ∈ nfa.alphabet) →
      ∀ (j : Nat) (Sj : Finset Nat), (detFinal nfa).subsets.get? j = some Sj →
      ∃ k, dfa_run (nfa_to_dfa nfa) j w = some k
        ∧ (detFinal nfa).subsets.get? k = some (w.foldl (detStep nfa) Sj) := by
  intro w
  induction w with
  | nil =>
    intro _ j Sj hj
    exact ⟨j, rfl, hj⟩
  | cons c w ih =>
    intro hwa j Sj hj
    have inv := detFinal_inv nfa
    obtain ⟨k1, hk1, hk1get⟩ := inv.processed j Sj hj (get?_some_lt hj) c
      (hwa c (List.mem_cons_self _ _))
    obtain ⟨k, hk, hkget⟩ := ih (fun x hx => hwa x (List.mem_cons_of_mem _ hx)) k1 _ hk1get
    refine ⟨k, ?_, hkget⟩
    rw [show dfa_run (nfa_to_dfa nfa) j (c :: w)
      = (match dict_get (nfa_to_dfa nfa).transitions (j, c) with
        | none => none
        | some t => dfa_run (nfa_to_dfa nfa) t w) from rfl]
    rw [show dict_get (nfa_to_dfa nfa).transitions (j, c)
      = dict_get (detFinal nfa).dtrans (j, c) from rfl, hk1]
    exact hk

/-- C2: for every NFA and every input string over its alphabet, the DFA
produced by the subset construction accepts the string iff the NFA
accepts it (acceptance of the NFA meaning the existence of a path,
with epsilon moves, from the start state to an accept state reading
exactly the string). -/
theorem subset_construction_language_equiv (nfa : NFA') (w : List Sym)
    (hw : ∀ c ∈ w, c ∈ nfa.alphabet) :
    dfa_accepts (nfa_to_dfa nfa) w = true ↔ nfa_accepts nfa w := by
  have inv := detFinal_inv nfa
  obtain ⟨k, hrun, hkget⟩ := dfa_run_detFinal nfa w hw 0 _ inv.head0
  unfold dfa_accepts
  rw [show (nfa_to_dfa nfa).start_state = 0 from rfl, hrun]
  rw [decide_eq_true_iff]
  have hacc := inv.accepted k _ hkget (get?_some_lt hkget)
  constructor
  · intro hmem
    have hd : k ∈ (detFinal nfa).daccept := by
      rw [show (nfa_to_dfa nfa).accept_states
        = finsetList (detFinal nfa).daccept from rfl] at hmem
      exact mem_finsetList.mp hmem
    obtain ⟨s, hs, hsa⟩ := hacc.mp hd
    have hs2 : s ∈ afterSet nfa w := hs
    exact ⟨s, mem_afterSet.mp hs2, hsa⟩
  · rintro ⟨t, hreads, hta⟩
    have ht : t ∈ afterSet nfa w := mem_afterSet.mpr hreads
    have hd : k ∈ (detFinal nfa).daccept := hacc.mpr ⟨t, ht, hta⟩
    rw [show (nfa_to_dfa nfa).accept_states
      = finsetList (detFinal nfa).daccept from rfl]
    exact mem_finsetList.mpr hd

/-- C2 witness: the language-equivalence theorem applied to the source's
example NFA and the input `"abb"` of its demo run. -/
theorem subset_construction_language_equiv_witness :
    (∀ c ∈ [Sym.a, Sym.b, Sym.b], c ∈ build_example_nfa.alphabet)
    ∧ (dfa_accepts (nfa_to_dfa build_example_nfa) [Sym.a, Sym.b, Sym.b] = true
        ↔ nfa_accepts build_example_nfa [Sym.a, Sym.b, Sym.b]) :=
  ⟨by decide,
    subset_construction_language_equiv build_example_nfa [Sym.a, Sym.b, Sym.b] (by decide)⟩

end Conv
